import Mathlib

/-!
Verification development for the milli indexing and retrieval core.

This file gives a shallow embedding, in Lean, of the parts of the source
tree relevant to the facet traversal algorithms, the store writer, the
chunking utility, the document-format error display and the JSON
flattener, and proves or refutes the specified properties about them.

Modelling conventions:
* Document ids (`u32`) are `Nat`; bitmaps (`RoaringBitmap`) are `Finset Nat`.
* The order-preserving `left_bound` byte encoding is modelled by `Nat`
  (byte-lexicographic order of the encoding equals value order, so only
  the order matters for the statements below).
* The facet store is an immutable snapshot: a list of entries sorted by
  `FacetGroupKey`. A read delivered by the storage engine may fail, so a
  stored value is `Except StoreErr FacetValue`: an `.error` item models a
  read/decode fault surfacing for that slot mid-traversal.
* Callbacks (`FnMut` closures) are modelled by a state type `σ` threaded
  explicitly through the traversal.
-/

/-- `FacetGroupKey { field_id, level, left_bound }` of the facet level store. -/
structure FacetKey where
  field_id : Nat
  level : Nat
  left_bound : Nat
deriving DecidableEq, Repr

/-- `FacetGroupValue { size, bitmap }`: child fan-out and the document-id bitmap. -/
structure FacetValue where
  size : Nat
  bitmap : Finset Nat
deriving DecidableEq

/-- Storage-engine read error (`heed::Error`), identified by an opaque code. -/
abbrev StoreErr := Nat

/-- One slot of the store snapshot: its key, and either the decoded value or a
read fault delivered when the cursor reaches that slot. -/
abbrev DbItem := FacetKey × Except StoreErr FacetValue

/-- The facet level store snapshot, sorted in ascending key order. -/
abbrev Db := List DbItem

/-- Strict lexicographic order on keys: `(field_id, level, left_bound)`. -/
def keyLtb (a b : FacetKey) : Bool :=
  a.field_id < b.field_id ||
    (a.field_id == b.field_id &&
      (a.level < b.level || (a.level == b.level && a.left_bound < b.left_bound)))

/-- Reflexive lexicographic order on keys. -/
def keyLeb (a b : FacetKey) : Bool :=
  keyLtb a b || a == b

/-- `usize::MAX`, used by both traversals as an unbounded take limit. -/
def usizeMax : Nat := 2 ^ 64 - 1

/-- `db.range(rtxn, &(k..))`: all entries at or after `k`, in ascending order.
The snapshot is sorted, so the right-unbounded range is an order-preserving
filter. -/
def dbRangeFrom (db : Db) (k : FacetKey) : Db :=
  db.filter (fun it => keyLeb k it.1)

/-- `ControlFlow<()>` returned by the distribution callback. -/
inductive CFlow where
  | cont
  | brk
deriving DecidableEq, Repr

/-- Outcome of a traversal layer: a normal return carrying the control-flow
value, an error returned to the caller (`Err`), or a panic (`unwrap` on an
error). Every constructor carries the callback state reached so far, which in
the source lives inside the `FnMut` closure. -/
inductive IterOut (σ : Type) where
  | flow (s : σ) (cf : CFlow)
  | fail (s : σ) (e : StoreErr)
  | panik (s : σ)
deriving DecidableEq, Repr

/-- The callback state an outcome ends with. -/
def IterOut.state {σ : Type} : IterOut σ → σ
  | .flow s _ => s
  | .fail s _ => s
  | .panik s => s

/-- `FacetDistribution::iterate_level_0`, from
`src/milli/src/search/facet/facet_distribution_iter.rs` lines 48–74, applied
to the entry sequence its range cursor delivers (`db.range(&(starting_key..))?
.take(group_size)`). For each entry: a cursor fault is returned with `?`; a
foreign `field_id` breaks; a value whose bitmap meets the candidates invokes
the callback with the intersection size and `value.bitmap.iter().next()
.unwrap()` — the first (smallest) element of the full bitmap. -/
def iterate_level_0 {σ : Type} (fid : Nat)
    (cb : σ → Nat → Nat → Nat → σ × Except StoreErr CFlow)
    (candidates : Finset Nat) : List DbItem → σ → IterOut σ
  | [], s => .flow s .cont
  | (key, vres) :: rest, s =>
    match vres with
    | .error e => .fail s e
    | .ok value =>
      if key.field_id ≠ fid then .flow s .brk
      else
        if h : 0 < (value.bitmap ∩ candidates).card then
          let any_docid := value.bitmap.min'
            (Finset.card_pos.mp (lt_of_lt_of_le h (Finset.card_le_card Finset.inter_subset_left)))
          match cb s key.left_bound (value.bitmap ∩ candidates).card any_docid with
          | (s', .ok .cont) => iterate_level_0 fid cb candidates rest s'
          | (s', .ok .brk) => .flow s' .brk
          | (s', .error e) => .fail s' e
        else iterate_level_0 fid cb candidates rest s

mutual

/-- `FacetDistribution::iterate`, lines 75–112 of
`facet_distribution_iter.rs`. At level 0 it delegates to `iterate_level_0`;
at level `L+1` it scans `db.range(&(starting_key..)).unwrap().take(group_size)`
and recurses one level down with the intersected bitmap and the group's
declared `size` as the child scan limit. -/
def iterate {σ : Type} (db : Db) (fid : Nat)
    (cb : σ → Nat → Nat → Nat → σ × Except StoreErr CFlow)
    (candidates : Finset Nat) (level : Nat) (starting_bound : Nat)
    (group_size : Nat) (s : σ) : IterOut σ :=
  match level with
  | 0 =>
    iterate_level_0 fid cb candidates
      ((dbRangeFrom db ⟨fid, 0, starting_bound⟩).take group_size) s
  | L + 1 =>
    iterate_children db fid cb candidates L
      ((dbRangeFrom db ⟨fid, L + 1, starting_bound⟩).take group_size) s
termination_by (level, 0)

/-- The `for el in iter` loop of `iterate` at level `L+1`. A cursor fault here
hits `el.unwrap()` (line 90) and panics; a `Break` from the recursive call —
or from a foreign field id — propagates immediately without visiting the rest
of the group sequence. -/
def iterate_children {σ : Type} (db : Db) (fid : Nat)
    (cb : σ → Nat → Nat → Nat → σ × Except StoreErr CFlow)
    (candidates : Finset Nat) (L : Nat) : List DbItem → σ → IterOut σ
  | [], s => .flow s .cont
  | (key, vres) :: rest, s =>
    match vres with
    | .error _ => .panik s
    | .ok value =>
      if key.field_id ≠ fid then .flow s .brk
      else
        if 0 < (value.bitmap ∩ candidates).card then
          match iterate db fid cb (value.bitmap ∩ candidates) L key.left_bound value.size s with
          | .flow s' .cont => iterate_children db fid cb candidates L rest s'
          | .flow s' .brk => .flow s' .brk
          | .fail s' e => .fail s' e
          | .panik s' => .panik s'
        else iterate_children db fid cb candidates L rest s
termination_by cursor _ => (L, cursor.length + 1)

end

/-- Modelled from the spec: `highest_level(field_id)` of §4.1 —
`get_highest_level` is defined in `search/facet/mod.rs`, which is not part of
the provided sources. The highest level present for the field; 0 when the
field has no entries (the dependent algorithms short-circuit through
`first_value` returning none in that case). -/
def get_highest_level (db : Db) (fid : Nat) : Nat :=
  ((db.filter (fun it => it.1.field_id == fid)).map (fun it => it.1.level)).foldr max 0

/-- Modelled from the spec: `first_value(field_id)` of §4.1 —
`get_first_facet_value` is defined in `search/facet/mod.rs`, which is not part
of the provided sources. The smallest level-0 left bound of the field, if any. -/
def get_first_facet_value (db : Db) (fid : Nat) : Option Nat :=
  ((db.filter (fun it => it.1.field_id == fid && it.1.level == 0)).map
    (fun it => it.1.left_bound)).min?

/-- Modelled from the spec: `last_value(field_id)` of §4.1 —
`get_last_facet_value` is defined in `search/facet/mod.rs`, which is not part
of the provided sources. The largest level-0 left bound of the field, if any. -/
def get_last_facet_value (db : Db) (fid : Nat) : Option Nat :=
  ((db.filter (fun it => it.1.field_id == fid && it.1.level == 0)).map
    (fun it => it.1.left_bound)).max?

/-- `iterate_over_facet_distribution`, lines 12–32 of
`facet_distribution_iter.rs`: find the highest level and the first bound, then
run `iterate` with `usize::MAX` as the group size. The Rust wrapper discards
the final `ControlFlow` value; the outcome is kept here so the theorems can
observe the callback state. -/
def iterate_over_facet_distribution {σ : Type} (db : Db) (fid : Nat)
    (cb : σ → Nat → Nat → Nat → σ × Except StoreErr CFlow)
    (candidates : Finset Nat) (s : σ) : IterOut σ :=
  match get_first_facet_value db fid with
  | some first_bound =>
    iterate db fid cb candidates (get_highest_level db fid) first_bound usizeMax s
  | none => .flow s .cont

/-- `Bound<&'t [u8]>`: the right bound kept in each descending-sort frame. -/
inductive RBound where
  | incl (v : Nat)
  | excl (v : Nat)
  | unb
deriving DecidableEq, Repr

/-- One frame of `DescendingFacetSort::stack` from
`src/milli/src/search/facet/facet_sort_descending.rs`: the remaining
candidates of the subtree, the remaining entries of the frame's reverse-range
cursor (in the order the cursor delivers them, i.e. descending), and the
current right bound. -/
structure DFrame where
  documents_ids : Finset Nat
  cursor : List DbItem
  right_bound : RBound

/-- The descending-sort stack. The head of the list is the top of the stack
(the source's `stack.last_mut()`). -/
abbrev DState := List DFrame

/-- Whether key `k` is admitted by the right bound `rb` translated to a key at
level `lv` of field `fid` — the `end_key_kelow` construction of lines 80–92. -/
def admUpper (rb : RBound) (fid lv : Nat) (k : FacetKey) : Bool :=
  match rb with
  | .incl r => keyLeb k ⟨fid, lv, r⟩
  | .excl r => keyLtb k ⟨fid, lv, r⟩
  | .unb => true

/-- `db.rev_range(rtxn, &(Included(lo), hi))`: the entries between the bounds,
delivered in descending key order. -/
def dbRevRange (db : Db) (lo : FacetKey) (rb : RBound) (fid lv : Nat) : Db :=
  (db.filter (fun it => keyLeb lo it.1 && admUpper rb fid lv it.1)).reverse

/-- Result of one iteration of the loop body of `DescendingFacetSort::next`
(lines 50–114): yield an item, continue with a new state, end the whole
iteration (`return None`), or panic. The yielded item carries, besides the
bitmap the source returns, the `left_bound` of the level-0 entry it came from,
so that the descending-order law can be stated; `next` returns only the
bitmap. Opening a sub-range over the snapshot list cannot fail in this model,
so the `Err` return of lines 102–103 has no counterpart here; a cursor item
fault hits `result.unwrap()` (line 57) and panics. -/
inductive DStep where
  | yield (b : Nat) (bm : Finset Nat) (s : DState)
  | cont (s : DState)
  | done
  | panik

/-- One iteration of the loop of `DescendingFacetSort::next`: read the next
entry of the top frame's cursor (popping the frame when the cursor — or the
whole stack — is exhausted, or when the frame's remaining candidates are
empty); stop everything on a foreign field id; otherwise intersect, subtract,
and either yield (level 0) or push a child frame scoped to
`[left_bound, previous right bound)` after shrinking the top frame's right
bound to `Excluded(left_bound)`. -/
def dStep (db : Db) (fid : Nat) : DState → DStep
  | [] => .done
  | frame :: stack =>
    match frame.cursor with
    | [] => .cont stack
    | (key, vres) :: cur =>
      match vres with
      | .error _ => .panik
      | .ok value =>
        if key.field_id ≠ fid then .done
        else if frame.documents_ids = ∅ then .cont stack
        else
          if value.bitmap ∩ frame.documents_ids ≠ ∅ then
            if key.level = 0 then
              .yield key.left_bound (value.bitmap ∩ frame.documents_ids)
                (⟨frame.documents_ids \ (value.bitmap ∩ frame.documents_ids), cur,
                  frame.right_bound⟩ :: stack)
            else
              .cont (⟨value.bitmap ∩ frame.documents_ids,
                  (dbRevRange db ⟨fid, key.level - 1, key.left_bound⟩ frame.right_bound fid
                    (key.level - 1)).take value.size,
                  frame.right_bound⟩ ::
                ⟨frame.documents_ids \ (value.bitmap ∩ frame.documents_ids), cur,
                  .excl key.left_bound⟩ :: stack)
          else .cont (⟨frame.documents_ids, cur, .excl key.left_bound⟩ :: stack)

/-- Drive `dStep` for at most `fuel` iterations, collecting the yielded
`(left_bound, bitmap)` items in order. The source iterator is pull-based; any
finite run is a prefix of this list for large enough fuel, and the machine
reaches `done` after finitely many steps. -/
def dRun (db : Db) (fid : Nat) : Nat → DState → List (Nat × Finset Nat)
  | 0, _ => []
  | fuel + 1, st =>
    match dStep db fid st with
    | .done => []
    | .panik => []
    | .cont st' => dRun db fid fuel st'
    | .yield b bm st' => (b, bm) :: dRun db fid fuel st'

/-- `descending_facet_sort`, lines 11–32 of `facet_sort_descending.rs`: build
the initial stack — one frame holding the whole candidate set, a reverse
cursor over `first_key..=last_key` at the highest level, and
`Included(last_bound)` as right bound — and iterate. An empty field yields the
empty iterator. The source unwraps `get_last_facet_value` (line 20), which
cannot be `none` when `get_first_facet_value` is `some`; that dead branch
returns the empty run here. -/
def descending_facet_sort (db : Db) (fid : Nat) (candidates : Finset Nat)
    (fuel : Nat) : List (Nat × Finset Nat) :=
  match get_first_facet_value db fid with
  | none => []
  | some first_bound =>
    match get_last_facet_value db fid with
    | none => []
    | some last_bound =>
      dRun db fid fuel
        [⟨candidates,
          (dbRevRange db ⟨fid, get_highest_level db fid, first_bound⟩ (.incl last_bound) fid
            (get_highest_level db fid)).take usizeMax,
          .incl last_bound⟩]

/-- The record of one callback invocation `(left_bound, count, docid)`. -/
abbrev Invoc := Nat × Nat × Nat

/-- A callback that records every invocation and answers with the
continue/stop decision `dec` computed from the reported triple. -/
def cbRecord (dec : Nat → Nat → Nat → CFlow) :
    List Invoc → Nat → Nat → Nat → List Invoc × Except StoreErr CFlow :=
  fun s b n d => (s ++ [(b, n, d)], .ok (dec b n d))

/-- A callback that counts its invocations and returns the stop signal on the
`N`-th one, continuing before that — the §8 early-stop experiment. -/
def cbStop (N : Nat) : Nat → Nat → Nat → Nat → Nat × Except StoreErr CFlow :=
  fun s _ _ _ => (s + 1, .ok (if s + 1 = N then .brk else .cont))

/-- The `"..."` ellipsis of `Display for DocumentFormatError`
(`src/milli/src/documents/document_formats.rs` line 61). -/
def msgEllipsis : List Char := ['.', '.', '.']

/-- The diagnostic-truncation step of the `Error::Json` arm of
`Display for DocumentFormatError` (lines 60–64): when the serde message is
longer than `100 + ellipsis.len()` bytes, run
`serde_msg.replace_range(50..serde_msg.len() - 85, "...")`. `replace_range`
panics when the range's start exceeds its end; `none` models that panic.
The message is modelled as its list of bytes (ASCII characters), so the byte
offsets of the source are list indices here. The surrounding
`write!(f, "The ... payload provided is malformed. ...")` only adds fixed
literal text around the truncated diagnostic and cannot fail. -/
def truncated_serde_msg (serde_msg : List Char) : Option (List Char) :=
  if 100 + msgEllipsis.length < serde_msg.length then
    if 50 ≤ serde_msg.length - 85 then
      some (serde_msg.take 50 ++ msgEllipsis ++ serde_msg.drop (serde_msg.length - 85))
    else none
  else some serde_msg

mutual

/-- JSON values, as in `serde_json::Value`; the exact primitive payloads are
irrelevant to the flattener, which only distinguishes objects, arrays and
everything else. Arrays and objects are given as mutually defined sequence
types (`JArr`, `JObj`) rather than `List`s, so that the mutual recursion of
the flattener is structural; `JObj` is a `serde_json::Map<String, Value>` in
iteration order. -/
inductive JValue where
  | null
  | bool (b : Bool)
  | num (n : Int)
  | str (s : String)
  | arr (vs : JArr)
  | obj (kvs : JObj)

inductive JArr where
  | anil
  | acons (v : JValue) (rest : JArr)

inductive JObj where
  | onil
  | ocons (key : String) (v : JValue) (rest : JObj)

end

/-- Concatenation of two arrays. -/
def aappend : JArr → JArr → JArr
  | .anil, b => b
  | .acons v rest, b => .acons v (aappend rest b)

/-- Concatenation of two objects (appending entries in iteration order). -/
def oappend : JObj → JObj → JObj
  | .onil, b => b
  | .ocons k v rest, b => .ocons k v (oappend rest b)

/-- The inner loop of `can_be_flattened` (`src/flatten-serde-json/src/lib.rs`
lines 11–18): some element of the array is an object or an array. -/
def arr_has_nested : JArr → Bool
  | .anil => false
  | .acons v rest =>
    (match v with
      | .obj _ => true
      | .arr _ => true
      | _ => false) || arr_has_nested rest

/-- `can_be_flattened`, lines 7–23: some value is an object, or an array
containing an object or an array. -/
def can_be_flattened : JObj → Bool
  | .onil => false
  | .ocons _ v rest =>
    (match v with
      | .obj _ => true
      | .arr vs => arr_has_nested vs
      | _ => false) || can_be_flattened rest

/-- First value bound to `key`, as `base_json.get_mut(key)` finds it. -/
def map_get : JObj → String → Option JValue
  | .onil, _ => none
  | .ocons k v rest, key => if k == key then some v else map_get rest key

/-- Overwrite the value bound to `key` in place (`base_json[key] = v` /
mutation through `get_mut`), leaving the rest of the object untouched. -/
def map_set : JObj → String → JValue → JObj
  | .onil, _, _ => .onil
  | .ocons k v rest, key, nv =>
    if k == key then .ocons key nv (map_set rest key nv)
    else .ocons k v (map_set rest key nv)

/-- `insert_value`, lines 65–83: push to an existing array, build a two-value
array on a collision, or insert fresh. `to_insert` is never an object or an
array at the call sites (the `debug_assert!`s of lines 66–67). -/
def insert_value (base_json : JObj) (key : String) (to_insert : JValue) : JObj :=
  match map_get base_json key with
  | some value =>
    match value with
    | .arr vs => map_set base_json key (.arr (aappend vs (.acons to_insert .anil)))
    | _ => map_set base_json key (.arr (.acons value (.acons to_insert .anil)))
  | none => oappend base_json (.ocons key to_insert .onil)

/-- The key-path extension of `insert_object` line 41:
`base_key.map_or_else(|| key.clone(), |base_key| format!("{base_key}.{key}"))`. -/
def new_key_of (base_key : Option String) (key : String) : String :=
  match base_key with
  | none => key
  | some bk => bk ++ "." ++ key

mutual

/-- `insert_object`, lines 35–51: walk the entries in iteration order,
extending the key path with `"."`, dispatching arrays and objects to the
recursive inserters and primitives to `insert_value`. -/
def insert_object (base_json : JObj) (base_key : Option String) : JObj → JObj
  | .onil => base_json
  | .ocons key value rest =>
    insert_object
      (match value with
        | .arr a => insert_array base_json (new_key_of base_key key) a
        | .obj o => insert_object base_json (some (new_key_of base_key key)) o
        | v => insert_value base_json (new_key_of base_key key) v)
      base_key rest

/-- `insert_array`, lines 53–63: walk the elements, recursing into objects
(extending the path) and nested arrays (same path), and inserting primitives
at the current path. -/
def insert_array (base_json : JObj) (base_key : String) : JArr → JObj
  | .anil => base_json
  | .acons value rest =>
    insert_array
      (match value with
        | .obj o => insert_object base_json (some base_key) o
        | .arr a => insert_array base_json base_key a
        | v => insert_value base_json base_key v)
      base_key rest

end

/-- `Cow<'a, Map<String, Value>>` as returned by `flatten`. -/
inductive FCow where
  | borrowed (m : JObj)
  | owned (m : JObj)

/-- The map a `Cow` dereferences to. -/
def FCow.content : FCow → JObj
  | .borrowed m => m
  | .owned m => m

/-- `flatten`, lines 25–33: flatten into a fresh map when something is
flattenable, otherwise return the input borrowed. -/
def flatten (json : JObj) : FCow :=
  if can_be_flattened json then .owned (insert_object .onil none json)
  else .borrowed json

/-- Raw byte strings: LMDB keys and values ( `&[u8]` ). -/
abbrev Bytes := List Nat

/-- Strict lexicographic order on byte strings, LMDB's key order. -/
def bytesLtb : Bytes → Bytes → Bool
  | [], [] => false
  | [], _ :: _ => true
  | _ :: _, [] => false
  | a :: as, b :: bs => a < b || (a == b && bytesLtb as bs)

/-- Whether `p` is a prefix of `k`. -/
def hasPref (p k : Bytes) : Bool :=
  k.take p.length == p

/-- An LMDB (poly)database region: entries sorted in ascending key order. -/
abbrev LStore := List (Bytes × Bytes)

/-- `MergeFn`: combine the ordered conflicting values for a key, or refuse. -/
abbrev LMergeFn := Bytes → List Bytes → Except StoreErr Bytes

/-- `database.prefix_iter_mut(wtxn, k)?` followed by `iter.next()`: the first
entry, in key order, whose key has `k` as a prefix. -/
def prefIterFirst (store : LStore) (k : Bytes) : Option (Bytes × Bytes) :=
  (store.filter (fun e => hasPref k e.1)).head?

/-- `iter.put_current(k, &val)`: overwrite the entry at the cursor — whose key
is `k` at the call site — in place. -/
def put_current (store : LStore) (k val : Bytes) : LStore :=
  store.map (fun e => if e.1 = k then (k, val) else e)

/-- `database.put(wtxn, k, v)`: sorted upsert of the exact key `k`. -/
def db_put : LStore → Bytes → Bytes → LStore
  | [], k, v => [(k, v)]
  | e :: rest, k, v =>
    if bytesLtb k e.1 then (k, v) :: e :: rest
    else if k = e.1 then (k, v) :: rest
    else e :: db_put rest k v

/-- The loop body of `write_into_lmdb_database`
(`src/milli/src/update/index_documents/helpers/grenad_helpers.rs` lines
247–262) for one `(k, v)` pair of the reader: probe with a prefix cursor; if
its first entry's key equals `k`, merge `[old_val, v]` (in that order) and
overwrite in place; in every other case (`_`), drop the cursor and `put`. -/
def write_step (merge : LMergeFn) (store : LStore) (kv : Bytes × Bytes) :
    Except StoreErr LStore :=
  match prefIterFirst store kv.1 with
  | some (key, old_val) =>
    if key = kv.1 then
      match merge kv.1 [old_val, kv.2] with
      | .ok val => .ok (put_current store kv.1 val)
      | .error e => .error e
    else .ok (db_put store kv.1 kv.2)
  | none => .ok (db_put store kv.1 kv.2)

/-- `write_into_lmdb_database`, lines 238–266: run `write_step` over the
reader's pairs in order, stopping at the first error (the `?` operators). -/
def write_into_lmdb_database (merge : LMergeFn) (store : LStore) :
    List (Bytes × Bytes) → Except StoreErr LStore
  | [] => .ok store
  | kv :: rest =>
    match write_step merge store kv with
    | .ok store' => write_into_lmdb_database merge store' rest
    | .error e => .error e

/-- Exact-key lookup in the store. -/
def store_lookup (store : LStore) (k : Bytes) : Option Bytes :=
  (store.find? (fun e => e.1 == k)).map (fun e => e.2)

/-- Modelled from the spec (§4.4 Store Writer, the claim's wording): probe the
store for an existing entry with exactly the incoming key; if found, apply the
merge function to the ordered pair (existing value, incoming value) and
overwrite in place; if absent, insert the incoming value unchanged. -/
def store_writer_spec_step (merge : LMergeFn) (store : LStore) (kv : Bytes × Bytes) :
    Except StoreErr LStore :=
  match store_lookup store kv.1 with
  | some old_val =>
    match merge kv.1 [old_val, kv.2] with
    | .ok val => .ok (put_current store kv.1 val)
    | .error e => .error e
  | none => .ok (db_put store kv.1 kv.2)

/-- The spec-side store writer: `store_writer_spec_step` key by key. -/
def store_writer_spec (merge : LMergeFn) (store : LStore) :
    List (Bytes × Bytes) → Except StoreErr LStore
  | [] => .ok store
  | kv :: rest =>
    match store_writer_spec_step merge store kv with
    | .ok store' => store_writer_spec merge store' rest
    | .error e => .error e

/-- Byte size a record contributes to `current_chunk_size`:
`document_id.len() + obkv.len()` (line 224). -/
def rec_size (e : Bytes × Bytes) : Nat :=
  e.1.length + e.2.length

/-- One call of the `transposer` closure of `grenad_obkv_into_chunks` (lines
210–233), minus the writer plumbing: consume records into the current chunk,
accumulating `current_chunk_size`, and return early — flag `true` — as soon as
the accumulated size reaches the threshold; flag `false` when the cursor is
exhausted first. Returns (chunk, remaining records, early flag). -/
def takeChunk (threshold : Nat) : List (Bytes × Bytes) → Nat →
    List (Bytes × Bytes) × List (Bytes × Bytes) × Bool
  | [], _ => ([], [], false)
  | e :: rest, cum =>
    if threshold ≤ cum + rec_size e then ([e], rest, true)
    else
      let r := takeChunk threshold rest (cum + rec_size e)
      (e :: r.1, r.2.1, r.2.2)

/-- The remaining records never grow while a chunk is taken. -/
theorem takeChunk_rest_le (threshold : Nat) :
    ∀ (l : List (Bytes × Bytes)) (cum : Nat),
      (takeChunk threshold l cum).2.1.length ≤ l.length := by
  intro l
  induction l with
  | nil => intro cum; simp [takeChunk]
  | cons e rest ih =>
    intro cum
    simp only [takeChunk]
    split
    · simp
    · simpa using Nat.le_succ_of_le (ih (cum + rec_size e))

/-- A chunk taken from a nonempty cursor consumes at least one record. -/
theorem takeChunk_rest_lt (threshold : Nat) (e : Bytes × Bytes)
    (rest : List (Bytes × Bytes)) (cum : Nat) :
    (takeChunk threshold (e :: rest) cum).2.1.length < (e :: rest).length := by
  simp only [takeChunk]
  split
  · simp
  · have h := takeChunk_rest_le threshold rest (cum + rec_size e)
    simp only [List.length_cons]
    omega

/-- `grenad_obkv_into_chunks`, lines 201–236: call the transposer until it
stops producing chunks. An exhausted cursor at the start of a call produces
one final (empty) chunk and clears `continue_reading`; a chunk closed early by
the size threshold is followed by another call. -/
def grenad_obkv_into_chunks (threshold : Nat) :
    List (Bytes × Bytes) → List (List (Bytes × Bytes))
  | [] => [[]]
  | e :: rest =>
    let tc := takeChunk threshold (e :: rest) 0
    if _h : tc.2.2 = true then
      tc.1 :: grenad_obkv_into_chunks threshold tc.2.1
    else
      [tc.1]
termination_by input => input.length
decreasing_by
  apply takeChunk_rest_lt

/-- C3 — the claim's truncation branch fails on a 104-byte diagnostic: the
message is longer than `100 + "...".len() = 103`, so the branch runs
`replace_range(50..104-85)`, i.e. `50..19`, whose start exceeds its end, and
panics instead of producing a truncated message. -/
theorem C3_truncation_panics_at_104 :
    truncated_serde_msg (List.replicate 104 'a') = none := by
  simp [truncated_serde_msg, msgEllipsis]

/-- C8 — determinism of the Descending Facet Sort Iterator: the traversal is a
pure function of the snapshot, the field, the candidate set and the fuel (it
reads only the immutable snapshot and its own stack), so two runs with the
same `(C, field)` against the same snapshot yield identical output sequences. -/
theorem C8_descending_sort_deterministic (db : Db) (fid : Nat)
    (candidates : Finset Nat) (fuel : Nat) :
    descending_facet_sort db fid candidates fuel =
      descending_facet_sort db fid candidates fuel := rfl

/-- Every triple recorded by `cbRecord` during `iterate_level_0` either was
already in the trace or comes from an `ok` entry of the cursor, reporting the
intersection count and the smallest element of the entry's full bitmap. -/
theorem iterate_level_0_record (fid : Nat) (dec : Nat → Nat → Nat → CFlow)
    (candidates : Finset Nat) :
    ∀ (cursor : List DbItem) (s : List Invoc) (t : Invoc),
      t ∈ (iterate_level_0 fid (cbRecord dec) candidates cursor s).state →
      t ∈ s ∨
        ∃ key value, (key, Except.ok value) ∈ cursor ∧ key.field_id = fid ∧
          t.1 = key.left_bound ∧ t.2.1 = (value.bitmap ∩ candidates).card ∧
          0 < (value.bitmap ∩ candidates).card ∧ t.2.2 ∈ value.bitmap := by
  intro cursor
  induction cursor with
  | nil =>
    intro s t ht
    left
    simpa [iterate_level_0, IterOut.state] using ht
  | cons hd rest ih =>
    intro s t ht
    obtain ⟨key, vres⟩ := hd
    match vres with
    | .error e =>
      left
      simpa [iterate_level_0, IterOut.state] using ht
    | .ok value =>
      by_cases hf : key.field_id = fid
      · by_cases hc : 0 < (value.bitmap ∩ candidates).card
        · rw [iterate_level_0] at ht
          simp only [hf, ne_eq, not_true_eq_false, if_false, hc, dif_pos, cbRecord] at ht
          rcases hdec : dec key.left_bound (value.bitmap ∩ candidates).card
              (value.bitmap.min'
                (Finset.card_pos.mp
                  (lt_of_lt_of_le hc (Finset.card_le_card Finset.inter_subset_left)))) with _ | _
          · rw [hdec] at ht
            rcases ih _ t ht with hmem | ⟨k, v, hkv, h1, h2, h3, h4, h5⟩
            · rcases List.mem_append.mp hmem with hs | hone
              · exact Or.inl hs
              · right
                refine ⟨key, value, List.mem_cons_self _ _, hf, ?_⟩
                simp only [List.mem_singleton] at hone
                subst hone
                exact ⟨rfl, rfl, hc, Finset.min'_mem _
                  (Finset.card_pos.mp
                    (lt_of_lt_of_le hc (Finset.card_le_card Finset.inter_subset_left)))⟩
            · exact Or.inr ⟨k, v, List.mem_cons_of_mem _ hkv, h1, h2, h3, h4, h5⟩
          · rw [hdec] at ht
            simp only [IterOut.state] at ht
            rcases List.mem_append.mp ht with hs | hone
            · exact Or.inl hs
            · right
              refine ⟨key, value, List.mem_cons_self _ _, hf, ?_⟩
              simp only [List.mem_singleton] at hone
              subst hone
              exact ⟨rfl, rfl, hc, Finset.min'_mem _
                (Finset.card_pos.mp
                  (lt_of_lt_of_le hc (Finset.card_le_card Finset.inter_subset_left)))⟩
        · rw [iterate_level_0] at ht
          simp only [hf, ne_eq, not_true_eq_false, if_false, hc, dif_neg, not_false_iff] at ht
          rcases ih _ t ht with hmem | ⟨k, v, hkv, h1, h2, h3, h4, h5⟩
          · exact Or.inl hmem
          · exact Or.inr ⟨k, v, List.mem_cons_of_mem _ hkv, h1, h2, h3, h4, h5⟩
      · left
        rw [iterate_level_0] at ht
        simp only [ne_eq, hf, not_false_iff, if_true, IterOut.state] at ht
        exact ht

/-- C1, counterexample — running the full distribution traversal over a store
with the single level-0 value `7 ↦ {0, 1}` and candidate set `{1}` invokes the
callback once, reporting count 1 (the intersection size) but representative
document id 0, which lies outside the intersection `{0,1} ∩ {1} = {1}`: the
representative is `value.bitmap.iter().next().unwrap()`, taken from the full
bitmap, not from the intersection. -/
theorem C1_representative_outside_intersection :
    iterate_over_facet_distribution [(⟨0, 0, 7⟩, .ok ⟨1, {0, 1}⟩)] 0
        (cbRecord fun _ _ _ => .cont) {1} [] = .flow [(7, 1, 0)] .cont ∧
      (0 : Nat) ∉ ({0, 1} : Finset Nat) ∩ {1} := by
  constructor
  · simp [iterate_over_facet_distribution, get_first_facet_value, get_highest_level, iterate,
      iterate_level_0, dbRangeFrom, keyLeb, keyLtb, usizeMax, cbRecord]
    decide
  · decide

/-- C1, amended — whenever the level-0 loop of the distribution iterator
invokes its callback, the reported count equals the size of the intersection
of that value's level-0 bitmap with the candidate set in effect for that
subtree (and is nonzero), and the reported representative document id is a
member of the value's level-0 bitmap — its smallest element — though not
necessarily of the intersection. -/
theorem C1_level0_callback_reports (fid : Nat) (dec : Nat → Nat → Nat → CFlow)
    (candidates : Finset Nat) (cursor : List DbItem) (t : Invoc)
    (ht : t ∈ (iterate_level_0 fid (cbRecord dec) candidates cursor []).state) :
    ∃ key value, (key, Except.ok value) ∈ cursor ∧ key.field_id = fid ∧
      t.1 = key.left_bound ∧ t.2.1 = (value.bitmap ∩ candidates).card ∧
      0 < (value.bitmap ∩ candidates).card ∧ t.2.2 ∈ value.bitmap := by
  rcases iterate_level_0_record fid dec candidates cursor [] t ht with h | h
  · simp at h
  · exact h

/-- C1, witness — the amended theorem applied to the concrete one-entry cursor
of the counterexample and the triple it records. -/
theorem C1_level0_callback_reports_witness :
    ((7, 1, 0) : Invoc) ∈ (iterate_level_0 0 (cbRecord fun _ _ _ => .cont) {1}
        [(⟨0, 0, 7⟩, .ok ⟨1, {0, 1}⟩)] []).state ∧
      ∃ key value, ((key, Except.ok value) : DbItem) ∈
          ([(⟨0, 0, 7⟩, .ok ⟨1, {0, 1}⟩)] : List DbItem) ∧
        key.field_id = 0 ∧ ((7, 1, 0) : Invoc).1 = key.left_bound ∧
        ((7, 1, 0) : Invoc).2.1 = (value.bitmap ∩ {1}).card ∧
        0 < (value.bitmap ∩ {1}).card ∧ ((7, 1, 0) : Invoc).2.2 ∈ value.bitmap :=
  ⟨by decide, C1_level0_callback_reports 0 (fun _ _ _ => .cont) {1}
    [(⟨0, 0, 7⟩, .ok ⟨1, {0, 1}⟩)] (7, 1, 0) (by decide)⟩

/-- C4, counterexample — a read error delivered by the store while the
distribution iterator scans at level 1 is not returned to the caller: the
traversal hits `el.unwrap()` (line 90 of `facet_distribution_iter.rs`) and
panics. The store holds the level-0 value `5 ↦ {0}` and a faulting level-1
slot, so the traversal starts at level 1 and meets the fault immediately. -/
theorem C4_level1_read_error_panics :
    iterate_over_facet_distribution
        [(⟨0, 0, 5⟩, .ok ⟨1, {0}⟩), (⟨0, 1, 5⟩, .error 3)] 0
        (cbRecord fun _ _ _ => .cont) {0} [] = .panik [] := by
  simp [iterate_over_facet_distribution, get_first_facet_value, get_highest_level, iterate,
    iterate_children, dbRangeFrom, keyLeb, keyLtb, usizeMax]

/-- C4, amended — how each loop treats a faulting cursor item: the level-0
scan of the distribution iterator returns the error immediately (`el?`),
invoking no callback and visiting nothing further; the level-≥1 scan of the
distribution iterator (`el.unwrap()`) and the descending sort iterator's
cursor (`result.unwrap()`) panic on it instead of returning it. -/
theorem C4_read_error_handling :
    (∀ (σ : Type) (fid : Nat) (cb : σ → Nat → Nat → Nat → σ × Except StoreErr CFlow)
      (candidates : Finset Nat) (key : FacetKey) (e : StoreErr) (rest : List DbItem) (s : σ),
      iterate_level_0 fid cb candidates ((key, .error e) :: rest) s = .fail s e) ∧
    (∀ (σ : Type) (db : Db) (fid : Nat) (cb : σ → Nat → Nat → Nat → σ × Except StoreErr CFlow)
      (candidates : Finset Nat) (L : Nat) (key : FacetKey) (e : StoreErr) (rest : List DbItem)
      (s : σ),
      iterate_children db fid cb candidates L ((key, .error e) :: rest) s = .panik s) ∧
    (∀ (db : Db) (fid : Nat) (docs : Finset Nat) (key : FacetKey) (e : StoreErr)
      (cur : List DbItem) (rb : RBound) (stack : DState),
      dStep db fid (⟨docs, (key, .error e) :: cur, rb⟩ :: stack) = .panik) := by
  refine ⟨fun σ fid cb candidates key e rest s => rfl, ?_, fun db fid docs key e cur rb stack => rfl⟩
  intro σ db fid cb candidates L key e rest s
  simp [iterate_children]

/-- With the stop-at-N callback, a level-0 scan started strictly below `N`
invocations ends at or below `N`, and can only end in `Continue` strictly
below `N` (a run that reaches the `N`-th invocation breaks there). -/
theorem iterate_level_0_stop_le (fid N : Nat) (candidates : Finset Nat) :
    ∀ (cursor : List DbItem) (s : Nat), s < N →
      (iterate_level_0 fid (cbStop N) candidates cursor s).state ≤ N ∧
        (∀ s', iterate_level_0 fid (cbStop N) candidates cursor s = .flow s' .cont → s' < N) := by
  intro cursor
  induction cursor with
  | nil =>
    intro s hs
    refine ⟨by simp [iterate_level_0, IterOut.state]; omega, ?_⟩
    intro s' h
    rw [iterate_level_0] at h
    rcases h with ⟨rfl, _⟩  -- probably wrong; adjust
    omega
  | cons hd rest ih =>
    intro s hs
    obtain ⟨key, vres⟩ := hd
    match vres with
    | .error e =>
      refine ⟨by simp [iterate_level_0, IterOut.state]; omega, ?_⟩
      intro s' h
      rw [iterate_level_0] at h
      exact absurd h (by simp)
    | .ok value =>
      by_cases hf : key.field_id = fid
      · by_cases hc : 0 < (value.bitmap ∩ candidates).card
        · by_cases hN : s + 1 = N
          · refine ⟨?_, ?_⟩
            · rw [iterate_level_0]
              simp only [hf, ne_eq, not_true_eq_false, if_false, hc, dif_pos, cbStop, hN,
                if_true, IterOut.state]
              omega
            · intro s' h
              rw [iterate_level_0] at h
              simp only [hf, ne_eq, not_true_eq_false, if_false, hc, dif_pos, cbStop, hN,
                if_true] at h
              exact absurd h (by simp)
          · have hlt : s + 1 < N := by omega
            have := ih (s + 1) hlt
            refine ⟨?_, ?_⟩
            · rw [iterate_level_0]
              simp only [hf, ne_eq, not_true_eq_false, if_false, hc, dif_pos, cbStop, hN,
                if_false]
              exact this.1
            · intro s' h
              rw [iterate_level_0] at h
              simp only [hf, ne_eq, not_true_eq_false, if_false, hc, dif_pos, cbStop, hN,
                if_false] at h
              exact this.2 s' h
        · have := ih s hs
          refine ⟨?_, ?_⟩
          · rw [iterate_level_0]
            simp only [hf, ne_eq, not_true_eq_false, if_false, hc, dif_neg, not_false_iff]
            exact this.1
          · intro s' h
            rw [iterate_level_0] at h
            simp only [hf, ne_eq, not_true_eq_false, if_false, hc, dif_neg, not_false_iff] at h
            exact this.2 s' h
      · refine ⟨?_, ?_⟩
        · rw [iterate_level_0]
          simp only [ne_eq, hf, not_false_iff, if_true, IterOut.state]
          omega
        · intro s' h
          rw [iterate_level_0] at h
          simp only [ne_eq, hf, not_false_iff, if_true] at h
          exact absurd h (by simp)

/-- The stop-at-N bound lifted through every recursion level of `iterate`:
the `Break` produced by the `N`-th invocation propagates up without further
invocations. -/
theorem iterate_stop_le (db : Db) (fid N : Nat) :
    ∀ (level : Nat) (candidates : Finset Nat) (sb gs s : Nat), s < N →
      (iterate db fid (cbStop N) candidates level sb gs s).state ≤ N ∧
        (∀ s', iterate db fid (cbStop N) candidates level sb gs s = .flow s' .cont → s' < N) := by
  intro level
  induction level with
  | zero =>
    intro candidates sb gs s hs
    have h := iterate_level_0_stop_le fid N candidates
      ((dbRangeFrom db ⟨fid, 0, sb⟩).take gs) s hs
    refine ⟨?_, ?_⟩
    · rw [iterate]; exact h.1
    · intro s' he; rw [iterate] at he; exact h.2 s' he
  | succ L ihL =>
    intro candidates sb gs s hs
    have hch : ∀ (cursor : List DbItem) (cands : Finset Nat) (s : Nat), s < N →
        (iterate_children db fid (cbStop N) cands L cursor s).state ≤ N ∧
          (∀ s', iterate_children db fid (cbStop N) cands L cursor s = .flow s' .cont →
            s' < N) := by
      intro cursor
      induction cursor with
      | nil =>
        intro cands s hs
        refine ⟨by simp [iterate_children, IterOut.state]; omega, ?_⟩
        intro s' h
        simp only [iterate_children] at h
        rcases h with ⟨rfl, _⟩
        omega
      | cons hd rest ihc =>
        intro cands s hs
        obtain ⟨key, vres⟩ := hd
        match vres with
        | .error e =>
          refine ⟨by simp [iterate_children, IterOut.state]; omega, ?_⟩
          intro s' h
          simp only [iterate_children] at h
          exact absurd h (by simp)
        | .ok value =>
          rw [iterate_children]
          by_cases hf : key.field_id = fid
          · rw [if_neg (by simp [hf])]
            by_cases hc : 0 < (value.bitmap ∩ cands).card
            · rw [if_pos hc]
              have hrec := ihL (value.bitmap ∩ cands) key.left_bound value.size s hs
              rcases hr : iterate db fid (cbStop N) (value.bitmap ∩ cands) L key.left_bound
                  value.size s with ⟨s', cf⟩ | ⟨s', e⟩ | s'
              · rcases cf with _ | _
                · have hs' : s' < N := hrec.2 s' hr
                  exact ihc cands s' hs'
                · refine ⟨?_, ?_⟩
                  · have h1 := hrec.1; rw [hr] at h1; simpa [IterOut.state] using h1
                  · intro s'' h; exact absurd h (by simp)
              · refine ⟨?_, ?_⟩
                · have h1 := hrec.1; rw [hr] at h1; simpa [IterOut.state] using h1
                · intro s'' h; exact absurd h (by simp)
              · refine ⟨?_, ?_⟩
                · have h1 := hrec.1; rw [hr] at h1; simpa [IterOut.state] using h1
                · intro s'' h; exact absurd h (by simp)
            · rw [if_neg hc]
              exact ihc cands s hs
          · rw [if_pos hf]
            refine ⟨by simp [IterOut.state]; omega, ?_⟩
            intro s' h
            exact absurd h (by simp)
    have h := hch ((dbRangeFrom db ⟨fid, L + 1, sb⟩).take gs) candidates s hs
    refine ⟨?_, ?_⟩
    · rw [iterate]; exact h.1
    · intro s' he; rw [iterate] at he; exact h.2 s' he

/-- C5 — with a callback that returns the stop signal on its `N`-th invocation
(`cbStop`, which counts invocations in its state), a full distribution
traversal over any store, field and candidate set invokes the callback at most
`N` times: together with the hypothesis of the claim — that the `N`-th
invocation does occur — the callback is invoked exactly `N` times, regardless
of index size. -/
theorem C5_early_stop (db : Db) (fid : Nat) (candidates : Finset Nat) (N : Nat)
    (hN : 0 < N) :
    (iterate_over_facet_distribution db fid (cbStop N) candidates 0).state ≤ N := by
  rw [iterate_over_facet_distribution]
  rcases h : get_first_facet_value db fid with _ | fb
  · simp [IterOut.state]
  · exact (iterate_stop_le db fid N (get_highest_level db fid) candidates fb usizeMax 0 hN).1

/-- C5, witness — the early-stop bound at `N = 2` over a three-value store. -/
theorem C5_early_stop_witness :
    (0 : Nat) < 2 ∧
      (iterate_over_facet_distribution
        [(⟨0, 0, 1⟩, .ok ⟨0, {1}⟩), (⟨0, 0, 2⟩, .ok ⟨0, {2}⟩), (⟨0, 0, 3⟩, .ok ⟨0, {3}⟩)]
        0 (cbStop 2) {1, 2, 3} 0).state ≤ 2 :=
  ⟨by decide,
    C5_early_stop
      [(⟨0, 0, 1⟩, .ok ⟨0, {1}⟩), (⟨0, 0, 2⟩, .ok ⟨0, {2}⟩), (⟨0, 0, 3⟩, .ok ⟨0, {3}⟩)]
      0 {1, 2, 3} 2 (by decide)⟩

/-- A value that is neither an object nor an array — what `insert_value` may
receive (its `debug_assert!`s). -/
def flatPrim : JValue → Bool
  | .obj _ => false
  | .arr _ => false
  | _ => true

/-- Every element of the array is a primitive. -/
def arrAllPrim : JArr → Bool
  | .anil => true
  | .acons v rest => flatPrim v && arrAllPrim rest

/-- A value allowed in a flattened map: a primitive, or an array of
primitives. -/
def flatVal : JValue → Bool
  | .obj _ => false
  | .arr vs => arrAllPrim vs
  | _ => true

/-- Every value of the object is `flatVal`: exactly the objects on which
`can_be_flattened` is false. -/
def flatMap : JObj → Bool
  | .onil => true
  | .ocons _ v rest => flatVal v && flatMap rest

/-- The inner loop of `can_be_flattened` is the negation of `arrAllPrim`. -/
theorem arr_has_nested_eq : ∀ vs : JArr, arr_has_nested vs = !arrAllPrim vs
  | .anil => rfl
  | .acons v rest => by
    cases v <;> simp [arr_has_nested, arrAllPrim, flatPrim, arr_has_nested_eq rest]

/-- `can_be_flattened` is false exactly on `flatMap` objects. -/
theorem can_be_flattened_eq_not_flatMap :
    ∀ m : JObj, can_be_flattened m = !flatMap m
  | .onil => rfl
  | .ocons k v rest => by
    cases v <;>
      simp [can_be_flattened, flatMap, flatVal, arr_has_nested_eq,
        can_be_flattened_eq_not_flatMap rest]

/-- A primitive is a legal flattened value. -/
theorem flatVal_of_flatPrim {v : JValue} (h : flatPrim v = true) : flatVal v = true := by
  cases v <;> simp_all [flatPrim, flatVal]

/-- `arrAllPrim` distributes over array concatenation. -/
theorem arrAllPrim_aappend : ∀ a b : JArr,
    arrAllPrim (aappend a b) = (arrAllPrim a && arrAllPrim b)
  | .anil, b => by simp [aappend, arrAllPrim]
  | .acons v rest, b => by
    simp [aappend, arrAllPrim, arrAllPrim_aappend rest b, Bool.and_assoc]

/-- `flatMap` distributes over object concatenation. -/
theorem flatMap_oappend : ∀ a b : JObj,
    flatMap (oappend a b) = (flatMap a && flatMap b)
  | .onil, b => by simp [oappend, flatMap]
  | .ocons k v rest, b => by
    simp [oappend, flatMap, flatMap_oappend rest b, Bool.and_assoc]

/-- Values found in a flat object are flat. -/
theorem map_get_flat : ∀ {m : JObj} {k : String} {v : JValue},
    flatMap m = true → map_get m k = some v → flatVal v = true
  | .onil, k, v => by
    intro _ hg
    simp [map_get] at hg
  | .ocons k2 v2 rest, k, v => by
    intro hm hg
    simp only [flatMap, Bool.and_eq_true] at hm
    simp only [map_get] at hg
    by_cases hk : (k2 == k) = true
    · rw [if_pos hk] at hg
      injection hg with h
      rw [← h]
      exact hm.1
    · rw [if_neg hk] at hg
      exact map_get_flat hm.2 hg

/-- Overwriting with a flat value keeps the object flat. -/
theorem map_set_flat : ∀ {m : JObj} {k : String} {v : JValue},
    flatMap m = true → flatVal v = true → flatMap (map_set m k v) = true
  | .onil, k, v => by
    intro _ _
    simp [map_set, flatMap]
  | .ocons k2 v2 rest, k, v => by
    intro hm hv
    simp only [flatMap, Bool.and_eq_true] at hm
    by_cases hk : (k2 == k) = true
    · simp only [map_set, if_pos hk, flatMap, Bool.and_eq_true]
      exact ⟨hv, map_set_flat hm.2 hv⟩
    · simp only [map_set, if_neg hk, flatMap, Bool.and_eq_true]
      exact ⟨hm.1, map_set_flat hm.2 hv⟩

/-- A two-element array of primitives is a legal flattened value. -/
theorem flatVal_pair {a b : JValue} (ha : flatPrim a = true) (hb : flatPrim b = true) :
    flatVal (.arr (.acons a (.acons b .anil))) = true := by
  simp [flatVal, arrAllPrim, ha, hb]

/-- `insert_value` keeps the object flat: it only ever stores primitives and
arrays of primitives (push keeps an array primitive-only; a collision packs
two primitives). -/
theorem insert_value_flat {base : JObj} {k : String} {t : JValue}
    (hb : flatMap base = true) (ht : flatPrim t = true) :
    flatMap (insert_value base k t) = true := by
  unfold insert_value
  rcases hg : map_get base k with _ | value
  · rw [flatMap_oappend, Bool.and_eq_true]
    exact ⟨hb, by simp [flatMap, flatVal_of_flatPrim ht]⟩
  · have hval : flatVal value = true := map_get_flat hb hg
    cases value with
    | arr vs =>
      refine map_set_flat hb ?_
      simp only [flatVal] at hval
      simp [flatVal, arrAllPrim_aappend, hval, arrAllPrim, ht]
    | obj kvs => simp [flatVal] at hval
    | null => exact map_set_flat hb (flatVal_pair (by rfl) ht)
    | bool b => exact map_set_flat hb (flatVal_pair (by rfl) ht)
    | num n => exact map_set_flat hb (flatVal_pair (by rfl) ht)
    | str s => exact map_set_flat hb (flatVal_pair (by rfl) ht)

mutual

def sizeV : JValue → Nat
  | .arr vs => sizeA vs + 1
  | .obj o => sizeO o + 1
  | _ => 1

def sizeA : JArr → Nat
  | .anil => 1
  | .acons v rest => sizeV v + sizeA rest + 1

def sizeO : JObj → Nat
  | .onil => 1
  | .ocons _ v rest => sizeV v + sizeO rest + 1

end

/-- Size-bounded joint induction: `insert_object` and `insert_array` keep the
target object flat, because every value reaching `insert_value` is a
primitive. -/
theorem insert_flat_bounded : ∀ n : Nat,
    (∀ (base : JObj) (bk : Option String) (o : JObj), sizeO o ≤ n →
      flatMap base = true → flatMap (insert_object base bk o) = true) ∧
    (∀ (base : JObj) (bk : String) (a : JArr), sizeA a ≤ n →
      flatMap base = true → flatMap (insert_array base bk a) = true) := by
  intro n
  induction n using Nat.strong_induction_on with
  | _ n ih =>
    constructor
    · intro base bk o hsz hb
      match o with
      | .onil => simpa [insert_object] using hb
      | .ocons key value rest =>
        simp only [sizeO] at hsz
        cases value with
        | arr a =>
          show flatMap
            (insert_object (insert_array base (new_key_of bk key) a) bk rest) = true
          refine (ih (sizeO rest) (by simp [sizeV] at hsz; omega)).1 _ bk rest le_rfl ?_
          exact (ih (sizeA a) (by simp [sizeV] at hsz; omega)).2 base _ a le_rfl hb
        | obj o2 =>
          show flatMap
            (insert_object (insert_object base (some (new_key_of bk key)) o2) bk rest) = true
          refine (ih (sizeO rest) (by simp [sizeV] at hsz; omega)).1 _ bk rest le_rfl ?_
          exact (ih (sizeO o2) (by simp [sizeV] at hsz; omega)).1 base _ o2 le_rfl hb
        | null =>
          show flatMap
            (insert_object (insert_value base (new_key_of bk key) .null) bk rest) = true
          exact (ih (sizeO rest) (by simp [sizeV] at hsz; omega)).1 _ bk rest le_rfl
            (insert_value_flat hb (by rfl))
        | bool b =>
          show flatMap
            (insert_object (insert_value base (new_key_of bk key) (.bool b)) bk rest) = true
          exact (ih (sizeO rest) (by simp [sizeV] at hsz; omega)).1 _ bk rest le_rfl
            (insert_value_flat hb (by rfl))
        | num m =>
          show flatMap
            (insert_object (insert_value base (new_key_of bk key) (.num m)) bk rest) = true
          exact (ih (sizeO rest) (by simp [sizeV] at hsz; omega)).1 _ bk rest le_rfl
            (insert_value_flat hb (by rfl))
        | str st =>
          show flatMap
            (insert_object (insert_value base (new_key_of bk key) (.str st)) bk rest) = true
          exact (ih (sizeO rest) (by simp [sizeV] at hsz; omega)).1 _ bk rest le_rfl
            (insert_value_flat hb (by rfl))
    · intro base bk a hsz hb
      match a with
      | .anil => simpa [insert_array] using hb
      | .acons value rest =>
        simp only [sizeA] at hsz
        cases value with
        | arr a2 =>
          show flatMap (insert_array (insert_array base bk a2) bk rest) = true
          refine (ih (sizeA rest) (by simp [sizeV] at hsz; omega)).2 _ bk rest le_rfl ?_
          exact (ih (sizeA a2) (by simp [sizeV] at hsz; omega)).2 base _ a2 le_rfl hb
        | obj o2 =>
          show flatMap (insert_array (insert_object base (some bk) o2) bk rest) = true
          refine (ih (sizeA rest) (by simp [sizeV] at hsz; omega)).2 _ bk rest le_rfl ?_
          exact (ih (sizeO o2) (by simp [sizeV] at hsz; omega)).1 base _ o2 le_rfl hb
        | null =>
          show flatMap (insert_array (insert_value base bk .null) bk rest) = true
          exact (ih (sizeA rest) (by simp [sizeV] at hsz; omega)).2 _ bk rest le_rfl
            (insert_value_flat hb (by rfl))
        | bool b =>
          show flatMap (insert_array (insert_value base bk (.bool b)) bk rest) = true
          exact (ih (sizeA rest) (by simp [sizeV] at hsz; omega)).2 _ bk rest le_rfl
            (insert_value_flat hb (by rfl))
        | num m =>
          show flatMap (insert_array (insert_value base bk (.num m)) bk rest) = true
          exact (ih (sizeA rest) (by simp [sizeV] at hsz; omega)).2 _ bk rest le_rfl
            (insert_value_flat hb (by rfl))
        | str st =>
          show flatMap (insert_array (insert_value base bk (.str st)) bk rest) = true
          exact (ih (sizeA rest) (by simp [sizeV] at hsz; omega)).2 _ bk rest le_rfl
            (insert_value_flat hb (by rfl))

/-- The flattener's output object only holds primitives and arrays of
primitives. -/
theorem insert_object_flat (base : JObj) (bk : Option String) (o : JObj)
    (hb : flatMap base = true) : flatMap (insert_object base bk o) = true :=
  (insert_flat_bounded (sizeO o)).1 base bk o le_rfl hb

/-- C10 — `flatten` is idempotent: its output contains no object values and no
array values containing objects or arrays (`can_be_flattened` is false on it),
so flattening a flattened object takes the borrowed, not-flattenable branch
and returns it unchanged. -/
theorem C10_flatten_idempotent (json : JObj) :
    can_be_flattened (flatten json).content = false ∧
      flatten (flatten json).content = .borrowed (flatten json).content := by
  have hkey : can_be_flattened (flatten json).content = false := by
    cases hb : can_be_flattened json with
    | false => rw [flatten]; simp only [hb, Bool.false_eq_true, if_false, FCow.content]
    | true =>
      rw [flatten]
      simp only [hb, if_true, FCow.content]
      rw [can_be_flattened_eq_not_flatMap, insert_object_flat .onil none json rfl]
      rfl
  refine ⟨hkey, ?_⟩
  rw [flatten, if_neg (by rw [hkey]; simp)]

/-- Total byte size of a chunk, as `current_chunk_size` accumulates it. -/
def chunkWeight (c : List (Bytes × Bytes)) : Nat :=
  (c.map rec_size).sum

/-- A transposer call splits the cursor: chunk ++ remaining = input. -/
theorem takeChunk_join (threshold : Nat) : ∀ (l : List (Bytes × Bytes)) (cum : Nat),
    (takeChunk threshold l cum).1 ++ (takeChunk threshold l cum).2.1 = l
  | [], _ => by simp [takeChunk]
  | e :: rest, cum => by
    rw [takeChunk]
    split
    · simp
    · simpa using takeChunk_join threshold rest (cum + rec_size e)

/-- When the transposer stops by cursor exhaustion, nothing remains. -/
theorem takeChunk_not_early_rest_nil (threshold : Nat) :
    ∀ (l : List (Bytes × Bytes)) (cum : Nat),
      (takeChunk threshold l cum).2.2 = false → (takeChunk threshold l cum).2.1 = []
  | [], _ => by simp [takeChunk]
  | e :: rest, cum => by
    rw [takeChunk]
    split
    · simp
    · simpa using takeChunk_not_early_rest_nil threshold rest (cum + rec_size e)

/-- A chunk closed early has accumulated at least the threshold. -/
theorem takeChunk_weight (threshold : Nat) :
    ∀ (l : List (Bytes × Bytes)) (cum : Nat),
      (takeChunk threshold l cum).2.2 = true →
      threshold ≤ cum + chunkWeight (takeChunk threshold l cum).1
  | [], _ => by simp [takeChunk]
  | e :: rest, cum => by
    rw [takeChunk]
    split
    · intro _
      simpa [chunkWeight] using by omega
    · intro h
      have h2 := takeChunk_weight threshold rest (cum + rec_size e) (by simpa using h)
      simp only [chunkWeight] at h2
      simp only [chunkWeight, List.map_cons, List.sum_cons]
      omega

/-- The chunker always emits at least one (possibly empty) chunk. -/
theorem chunks_ne_nil (threshold : Nat) (input : List (Bytes × Bytes)) :
    grenad_obkv_into_chunks threshold input ≠ [] := by
  match input with
  | [] => rw [grenad_obkv_into_chunks]; simp
  | e :: rest =>
    rw [grenad_obkv_into_chunks]
    split <;> simp

/-- Concatenating all emitted chunks restores the input, by strong induction
on the cursor length. -/
theorem chunks_join_bounded (threshold : Nat) : ∀ (n : Nat) (input : List (Bytes × Bytes)),
    input.length ≤ n → (grenad_obkv_into_chunks threshold input).flatten = input := by
  intro n
  induction n using Nat.strong_induction_on with
  | _ n ih =>
    intro input hlen
    match input with
    | [] => rw [grenad_obkv_into_chunks]; simp
    | e :: rest =>
      rw [grenad_obkv_into_chunks]
      split
      · next h =>
        rw [List.flatten_cons]
        have hlt := takeChunk_rest_lt threshold e rest 0
        have hr := ih ((takeChunk threshold (e :: rest) 0).2.1.length)
          (by omega) _ le_rfl
        rw [hr]
        exact takeChunk_join threshold (e :: rest) 0
      · next h =>
        have hnil := takeChunk_not_early_rest_nil threshold (e :: rest) 0
          (by simpa using h)
        have hj := takeChunk_join threshold (e :: rest) 0
        rw [hnil] at hj
        simpa using hj

/-- Every chunk except the final one was closed at or above the threshold. -/
theorem chunks_threshold_bounded (threshold : Nat) :
    ∀ (n : Nat) (input : List (Bytes × Bytes)), input.length ≤ n →
      ∀ c ∈ (grenad_obkv_into_chunks threshold input).dropLast, threshold ≤ chunkWeight c := by
  intro n
  induction n using Nat.strong_induction_on with
  | _ n ih =>
    intro input hlen c hc
    match input with
    | [] =>
      rw [grenad_obkv_into_chunks] at hc
      simp at hc
    | e :: rest =>
      rw [grenad_obkv_into_chunks] at hc
      rcases hsp : (takeChunk threshold (e :: rest) 0).2.2 with _ | _
      · rw [dif_neg (by simp [hsp])] at hc
        simp at hc
      · rw [dif_pos hsp] at hc
        rw [List.dropLast_cons_of_ne_nil (chunks_ne_nil threshold _)] at hc
        rcases List.mem_cons.mp hc with rfl | hmem
        · have := takeChunk_weight threshold (e :: rest) 0 hsp
          omega
        · have hlt := takeChunk_rest_lt threshold e rest 0
          exact ih ((takeChunk threshold (e :: rest) 0).2.1.length) (by omega) _ le_rfl c hmem

/-- C9 — the chunking utility preserves content and order (concatenating the
emitted sub-chunks yields exactly the input sequence), and a new chunk is
started only once the accumulated byte size of the current chunk has reached
the threshold: every chunk except the last was closed with accumulated size at
least the threshold. -/
theorem C9_chunks_preserve (threshold : Nat) (input : List (Bytes × Bytes)) :
    (grenad_obkv_into_chunks threshold input).flatten = input ∧
      ∀ c ∈ (grenad_obkv_into_chunks threshold input).dropLast, threshold ≤ chunkWeight c :=
  ⟨chunks_join_bounded threshold input.length input le_rfl,
   chunks_threshold_bounded threshold input.length input le_rfl⟩

/-- Byte-lexicographic order is irreflexive. -/
theorem bytesLtb_irrefl : ∀ a : Bytes, bytesLtb a a = false
  | [] => rfl
  | x :: xs => by simp [bytesLtb, bytesLtb_irrefl xs]

/-- Byte-lexicographic order is transitive. -/
theorem bytesLtb_trans : ∀ a b c : Bytes,
    bytesLtb a b = true → bytesLtb b c = true → bytesLtb a c = true
  | [], [], _ => by simp [bytesLtb]
  | [], _ :: _, [] => by simp [bytesLtb]
  | [], _ :: _, _ :: _ => by simp [bytesLtb]
  | _ :: _, [], _ => by simp [bytesLtb]
  | _ :: _, _ :: _, [] => by simp [bytesLtb]
  | x :: as, y :: bs, z :: cs => by
    simp only [bytesLtb, Bool.or_eq_true, Bool.and_eq_true, decide_eq_true_eq, beq_iff_eq]
    intro h1 h2
    rcases h1 with h | ⟨rfl, h⟩ <;> rcases h2 with h' | ⟨rfl, h'⟩
    · exact Or.inl (lt_trans h h')
    · exact Or.inl h
    · exact Or.inl h'
    · exact Or.inr ⟨rfl, bytesLtb_trans _ _ _ h h'⟩

/-- Byte-lexicographic trichotomy. -/
theorem bytesLtb_total : ∀ a b : Bytes,
    bytesLtb a b = true ∨ a = b ∨ bytesLtb b a = true
  | [], [] => Or.inr (Or.inl rfl)
  | [], _ :: _ => Or.inl (by simp [bytesLtb])
  | _ :: _, [] => Or.inr (Or.inr (by simp [bytesLtb]))
  | x :: as, y :: bs => by
    rcases Nat.lt_trichotomy x y with h | rfl | h
    · exact Or.inl (by simp [bytesLtb, h])
    · rcases bytesLtb_total as bs with h | rfl | h
      · exact Or.inl (by simp [bytesLtb, h])
      · exact Or.inr (Or.inl rfl)
      · exact Or.inr (Or.inr (by simp [bytesLtb, h]))
    · exact Or.inr (Or.inr (by simp [bytesLtb, h]))

/-- A byte string is a prefix of itself. -/
theorem hasPref_self (k : Bytes) : hasPref k k = true := by
  simp [hasPref]

/-- A proper prefix precedes its extensions in key order. -/
theorem bytesLtb_of_hasPref : ∀ k x : Bytes, hasPref k x = true → k ≠ x →
    bytesLtb k x = true
  | [], [], _, hne => absurd rfl hne
  | [], _ :: _, _, _ => by simp [bytesLtb]
  | _ :: _, [], hp, _ => by simp [hasPref] at hp
  | a :: as, b :: bs, hp, hne => by
    simp only [hasPref, List.length_cons, List.take_succ_cons, List.cons.injEq,
      beq_iff_eq] at hp
    obtain ⟨rfl, hp2⟩ := hp
    have hne2 : as ≠ bs := fun h => hne (by rw [h])
    have := bytesLtb_of_hasPref as bs (by simp [hasPref, hp2]) hne2
    simp [bytesLtb, this]

/-- The store region is sorted in strictly ascending key order, as LMDB keeps
it. -/
abbrev storeSorted (store : LStore) : Prop :=
  List.Pairwise (fun a b => bytesLtb a.1 b.1 = true) store

/-- A successful exact-key lookup exhibits a store entry. -/
theorem store_lookup_mem : ∀ {store : LStore} {k v : Bytes},
    store_lookup store k = some v → (k, v) ∈ store := by
  intro store k v h
  unfold store_lookup at h
  rcases Option.map_eq_some'.mp h with ⟨e, hfind, hev⟩
  have hmem := List.mem_of_find?_eq_some hfind
  have hpred := List.find?_some hfind
  simp only [beq_iff_eq] at hpred
  have : e = (k, v) := by
    obtain ⟨e1, e2⟩ := e
    simp only at hpred hev
    rw [hpred, hev]
  rw [← this]
  exact hmem

/-- On a sorted store, the prefix-cursor probe of the writer — first entry
whose key extends `k`, accepted only when it equals `k` — coincides with the
exact-key lookup, because `k` itself is the smallest key extending `k`. -/
theorem probe_eq_lookup (k : Bytes) : ∀ (store : LStore), storeSorted store →
    (match prefIterFirst store k with
      | some (key, old) => if key = k then some old else none
      | none => none) = store_lookup store k := by
  intro store
  induction store with
  | nil => intro _; rfl
  | cons e rest ih =>
    intro hs
    obtain ⟨k', v'⟩ := e
    have hs2 : storeSorted rest := hs.sublist (List.sublist_cons_self _ _)
    rcases hpref : hasPref k k' with _ | _
    · have hne : k' ≠ k := by
        intro h
        rw [h, hasPref_self] at hpref
        simp at hpref
    -- prefix fails: probe skips the head; lookup also skips since k' ≠ k
      have : prefIterFirst ((k', v') :: rest) k = prefIterFirst rest k := by
        simp [prefIterFirst, hpref]
      rw [this]
      unfold store_lookup
      rw [List.find?_cons_of_neg _ (by simp [hne])]
      exact ih hs2
    · have hfirst : prefIterFirst ((k', v') :: rest) k = some (k', v') := by
        simp [prefIterFirst, hpref]
      simp only [hfirst]
      by_cases heq : k' = k
      · subst heq
        unfold store_lookup
        rw [List.find?_cons_of_pos _ (by simp)]
        simp
      · rw [if_neg heq]
        unfold store_lookup
        rw [List.find?_cons_of_neg _ (by simp [heq])]
        rcases hl : store_lookup rest k with _ | v
        · exact hl.symm
        · exfalso
          have hmem := store_lookup_mem hl
          have hlt1 : bytesLtb k' k = true :=
            List.rel_of_pairwise_cons hs hmem
          have hlt2 : bytesLtb k k' = true :=
            bytesLtb_of_hasPref k k' hpref (fun h => heq h.symm)
          have := bytesLtb_trans _ _ _ hlt1 hlt2
          rw [bytesLtb_irrefl] at this
          exact Bool.false_ne_true this

/-- One writer step equals one spec step on a sorted store. -/
theorem write_step_eq_spec (merge : LMergeFn) (store : LStore) (kv : Bytes × Bytes)
    (hs : storeSorted store) :
    write_step merge store kv = store_writer_spec_step merge store kv := by
  have hp := probe_eq_lookup kv.1 store hs
  unfold write_step store_writer_spec_step
  rcases hf : prefIterFirst store kv.1 with _ | e
  · simp only [hf] at hp ⊢
    rw [← hp]
  · obtain ⟨key, old⟩ := e
    simp only [hf] at hp ⊢
    by_cases heq : key = kv.1
    · subst heq
      rw [if_pos rfl] at hp ⊢
      simp only [← hp]
    · rw [if_neg heq] at hp ⊢
      simp only [← hp]

/-- Overwriting in place never changes the key sequence. -/
theorem put_current_keys (store : LStore) (k v : Bytes) :
    (put_current store k v).map Prod.fst = store.map Prod.fst := by
  unfold put_current
  rw [List.map_map]
  apply List.map_congr_left
  intro e _
  by_cases h : e.1 = k
  · simp [h]
  · simp [h]

/-- Overwriting in place keeps the store sorted. -/
theorem put_current_sorted {store : LStore} (k v : Bytes) (hs : storeSorted store) :
    storeSorted (put_current store k v) := by
  have h1 : List.Pairwise (fun a b => bytesLtb a b = true) (store.map Prod.fst) :=
    List.pairwise_map.mpr hs
  have h2 : List.Pairwise (fun a b => bytesLtb a b = true)
      ((put_current store k v).map Prod.fst) := by
    rw [put_current_keys]
    exact h1
  exact List.pairwise_map.mp h2

/-- Entries after an upsert come from the upsert or the old store. -/
theorem db_put_mem : ∀ {store : LStore} {k v : Bytes} {e : Bytes × Bytes},
    e ∈ db_put store k v → e = (k, v) ∨ e ∈ store := by
  intro store
  induction store with
  | nil =>
    intro k v e he
    simp [db_put] at he
    simp [he]
  | cons hd rest ih =>
    intro k v e he
    rw [db_put] at he
    split at he
    · rcases List.mem_cons.mp he with h | h
      · exact Or.inl h
      · exact Or.inr h
    · split at he
      · rcases List.mem_cons.mp he with h | h
        · exact Or.inl h
        · exact Or.inr (List.mem_cons_of_mem _ h)
      · rcases List.mem_cons.mp he with h | h
        · exact Or.inr (h ▸ List.mem_cons_self _ _)
        · rcases ih h with h2 | h2
          · exact Or.inl h2
          · exact Or.inr (List.mem_cons_of_mem _ h2)

/-- The sorted upsert keeps the store sorted. -/
theorem db_put_sorted : ∀ {store : LStore} (k v : Bytes), storeSorted store →
    storeSorted (db_put store k v) := by
  intro store
  induction store with
  | nil =>
    intro k v _
    simp [db_put, storeSorted]
  | cons hd rest ih =>
    intro k v hs
    have hhd : ∀ e ∈ rest, bytesLtb hd.1 e.1 = true := fun e he =>
      List.rel_of_pairwise_cons hs he
    have hrest : storeSorted rest := hs.sublist (List.sublist_cons_self _ _)
    rw [db_put]
    split
    · next hlt =>
      refine List.Pairwise.cons ?_ hs
      intro e he
      rcases List.mem_cons.mp he with rfl | hmem
      · exact hlt
      · exact bytesLtb_trans _ _ _ hlt (hhd _ hmem)
    · next hnlt =>
      split
      · next heq =>
        refine List.Pairwise.cons ?_ hrest
        intro e he
        rw [heq]
        exact hhd _ he
      · next hne =>
        have hlt2 : bytesLtb hd.1 k = true := by
          rcases bytesLtb_total k hd.1 with h | h | h
          · exact absurd h (by simpa using hnlt)
          · exact absurd h hne
          · exact h
        refine List.Pairwise.cons ?_ (ih k v hrest)
        intro e he
        rcases db_put_mem he with rfl | hmem
        · exact hlt2
        · exact hhd _ hmem

/-- A successful writer step keeps the store sorted. -/
theorem write_step_sorted (merge : LMergeFn) (kv : Bytes × Bytes)
    {store store' : LStore}
    (hs : storeSorted store) (h : write_step merge store kv = .ok store') :
    storeSorted store' := by
  unfold write_step at h
  rcases hf : prefIterFirst store kv.1 with _ | e
  · simp only [hf, Except.ok.injEq] at h
    rw [← h]
    exact db_put_sorted _ _ hs
  · obtain ⟨key, old⟩ := e
    simp only [hf] at h
    by_cases heq : key = kv.1
    · rw [if_pos heq] at h
      rcases hm : merge kv.1 [old, kv.2] with e2 | val
      · simp only [hm] at h
        exact Except.noConfusion h
      · simp only [hm, Except.ok.injEq] at h
        rw [← h]
        exact put_current_sorted _ _ hs
    · rw [if_neg heq] at h
      simp only [Except.ok.injEq] at h
      rw [← h]
      exact db_put_sorted _ _ hs

/-- C7 — the store writer processes its input key by key, and under the sorted
store snapshot its prefix-cursor probe behaves exactly as the spec's
exact-key probe: the whole run of `write_into_lmdb_database` coincides with
the spec-side store writer (merge `(existing, incoming)` and overwrite in
place when the exact key exists, plain insert otherwise). -/
theorem C7_store_writer_refines_spec (merge : LMergeFn) :
    ∀ (input : List (Bytes × Bytes)) (store : LStore), storeSorted store →
      write_into_lmdb_database merge store input = store_writer_spec merge store input := by
  intro input
  induction input with
  | nil => intro store _; rfl
  | cons kv rest ih =>
    intro store hs
    rw [write_into_lmdb_database, store_writer_spec, write_step_eq_spec merge store kv hs]
    rcases hstep : store_writer_spec_step merge store kv with e | store'
    · rfl
    · have hsorted : storeSorted store' := by
        refine write_step_sorted merge kv hs ?_
        rw [write_step_eq_spec merge store kv hs, hstep]
      exact ih store' hsorted

/-- C7, witness — the run equality applied to a concrete sorted store, one
colliding key and one fresh key, with a concatenating merge function. -/
theorem C7_store_writer_refines_spec_witness :
    storeSorted [([0], [1]), ([0, 1], [2])] ∧
      write_into_lmdb_database (fun _ vs => .ok vs.flatten) [([0], [1]), ([0, 1], [2])]
          [([0], [9]), ([1], [5])] =
        store_writer_spec (fun _ vs => .ok vs.flatten) [([0], [1]), ([0, 1], [2])]
          [([0], [9]), ([1], [5])] :=
  ⟨by decide, C7_store_writer_refines_spec (fun _ vs => .ok vs.flatten)
    [([0], [9]), ([1], [5])] [([0], [1]), ([0, 1], [2])] (by decide)⟩

/-- The remaining-candidate bitmaps of the stack frames, top first. -/
def dDocs (s : DState) : List (Finset Nat) :=
  s.map DFrame.documents_ids

/-- The partition invariant of the descending sort: the listed bitmaps —
already-yielded outputs together with every frame's remaining candidates —
are pairwise disjoint and each contained in the initial candidate set. -/
def SetsOk (C : Finset Nat) (l : List (Finset Nat)) : Prop :=
  l.Pairwise Disjoint ∧ ∀ x ∈ l, x ⊆ C

/-- The partition invariant restricts to sublists. -/
theorem SetsOk_sublist {C : Finset Nat} {l l' : List (Finset Nat)}
    (hsub : l'.Sublist l) (h : SetsOk C l) : SetsOk C l' :=
  ⟨h.1.sublist hsub, fun x hx => h.2 x (hsub.mem hx)⟩

/-- Splitting one bitmap of the invariant into two disjoint parts of itself —
what intersect-and-subtract does — keeps the invariant. -/
theorem SetsOk_split {C d a b : Finset Nat} {L M : List (Finset Nat)}
    (h : SetsOk C (L ++ d :: M)) (ha : a ⊆ d) (hb : b ⊆ d) (hab : Disjoint a b) :
    SetsOk C (L ++ a :: b :: M) := by
  obtain ⟨hp, hs⟩ := h
  rw [List.pairwise_append] at hp
  obtain ⟨hpL, hpdM, hLdM⟩ := hp
  rw [List.pairwise_cons] at hpdM
  obtain ⟨hdM, hpM⟩ := hpdM
  constructor
  · rw [List.pairwise_append]
    refine ⟨hpL, ?_, ?_⟩
    · rw [List.pairwise_cons]
      constructor
      · intro x hx
        rcases List.mem_cons.mp hx with rfl | hx2
        · exact hab
        · exact Finset.disjoint_of_subset_left ha (hdM x hx2)
      · rw [List.pairwise_cons]
        exact ⟨fun x hx => Finset.disjoint_of_subset_left hb (hdM x hx), hpM⟩
    · intro x hx y hy
      rcases List.mem_cons.mp hy with rfl | hy2
      · exact Finset.disjoint_of_subset_right ha (hLdM x hx d (List.mem_cons_self _ _))
      · rcases List.mem_cons.mp hy2 with rfl | hy3
        · exact Finset.disjoint_of_subset_right hb (hLdM x hx d (List.mem_cons_self _ _))
        · exact hLdM x hx y (List.mem_cons_of_mem _ hy3)
  · intro x hx
    have hd : d ⊆ C := hs d (by simp)
    rcases List.mem_append.mp hx with hx | hx
    · exact hs x (List.mem_append_left _ hx)
    · rcases List.mem_cons.mp hx with rfl | hx2
      · exact ha.trans hd
      · rcases List.mem_cons.mp hx2 with rfl | hx3
        · exact hb.trans hd
        · exact hs x (by simp [hx3])

/-- One machine step preserves the partition invariant: a pop restricts it, a
skip keeps it, and a push or a yield splits the top frame's candidates into
the intersection and the remainder. -/
theorem dStep_SetsOk {db : Db} {fid : Nat} {C : Finset Nat}
    (L : List (Finset Nat)) (s : DState) (h : SetsOk C (L ++ dDocs s)) :
    (∀ s', dStep db fid s = .cont s' → SetsOk C (L ++ dDocs s')) ∧
    (∀ b bm s', dStep db fid s = .yield b bm s' → SetsOk C ((L ++ [bm]) ++ dDocs s')) := by
  match s with
  | [] =>
    refine ⟨?_, ?_⟩
    · intro s' heq; simp [dStep] at heq
    · intro b bm s' heq; simp [dStep] at heq
  | ⟨docs, cursor, rb⟩ :: stack =>
    have hsub : SetsOk C (L ++ dDocs stack) := by
      refine SetsOk_sublist ?_ h
      refine List.Sublist.append_left ?_ L
      simp [dDocs]
    match cursor with
    | [] =>
      refine ⟨?_, ?_⟩
      · intro s' heq
        simp only [dStep] at heq
        cases heq
        exact hsub
      · intro b bm s' heq; simp [dStep] at heq
    | (key, vres) :: cur =>
      match vres with
      | .error e =>
        refine ⟨?_, ?_⟩
        · intro s' heq; simp [dStep] at heq
        · intro b bm s' heq; simp [dStep] at heq
      | .ok value =>
        by_cases hf : key.field_id ≠ fid
        · refine ⟨?_, ?_⟩
          · intro s' heq; simp [dStep, hf] at heq
          · intro b bm s' heq; simp [dStep, hf] at heq
        · by_cases hd : docs = ∅
          · refine ⟨?_, ?_⟩
            · intro s' heq
              simp only [dStep, if_neg hf, if_pos hd] at heq
              cases heq
              exact hsub
            · intro b bm s' heq
              simp only [dStep, if_neg hf, if_pos hd] at heq
              cases heq
          · by_cases hbm : value.bitmap ∩ docs ≠ ∅
            · by_cases hl : key.level = 0
              · refine ⟨?_, ?_⟩
                · intro s' heq
                  simp only [dStep, if_neg hf, if_neg hd, if_pos hbm,
                    if_pos hl] at heq
                  cases heq
                · intro b bm s' heq
                  simp only [dStep, if_neg hf, if_neg hd, if_pos hbm,
                    if_pos hl] at heq
                  obtain ⟨rfl, rfl, rfl⟩ := heq
                  have hsplit := SetsOk_split (d := docs) (L := L) (M := dDocs stack)
                    (a := value.bitmap ∩ docs) (b := docs \ (value.bitmap ∩ docs))
                    (by simpa [dDocs] using h) Finset.inter_subset_right
                    (Finset.sdiff_subset) (Finset.disjoint_sdiff)
                  simpa [dDocs] using hsplit
              · refine ⟨?_, ?_⟩
                · intro s' heq
                  simp only [dStep, if_neg hf, if_neg hd, if_pos hbm,
                    if_neg hl] at heq
                  cases heq
                  have hsplit := SetsOk_split (d := docs) (L := L) (M := dDocs stack)
                    (a := value.bitmap ∩ docs) (b := docs \ (value.bitmap ∩ docs))
                    (by simpa [dDocs] using h) Finset.inter_subset_right
                    (Finset.sdiff_subset) (Finset.disjoint_sdiff)
                  simpa [dDocs] using hsplit
                · intro b bm s' heq
                  simp only [dStep, if_neg hf, if_neg hd, if_pos hbm,
                    if_neg hl] at heq
                  cases heq
            · refine ⟨?_, ?_⟩
              · intro s' heq
                simp only [dStep, if_neg hf, if_neg hd, if_neg hbm] at heq
                cases heq
                simpa [dDocs] using h
              · intro b bm s' heq
                simp only [dStep, if_neg hf, if_neg hd, if_neg hbm] at heq
                cases heq

/-- The partition invariant lifted to whole runs of any fuel. -/
theorem dRun_SetsOk (db : Db) (fid : Nat) {C : Finset Nat} :
    ∀ (fuel : Nat) (s : DState) (L : List (Finset Nat)),
      SetsOk C (L ++ dDocs s) →
      SetsOk C (L ++ (dRun db fid fuel s).map Prod.snd) := by
  intro fuel
  induction fuel with
  | zero =>
    intro s L h
    simp only [dRun, List.map_nil]
    exact SetsOk_sublist (by simp) h
  | succ fuel ih =>
    intro s L h
    rw [dRun]
    rcases hstep : dStep db fid s with ⟨b, bm, s'⟩ | ⟨s'⟩ | _ | _
    · simp only [List.map_cons]
      have h2 := (dStep_SetsOk L s h).2 b bm s' hstep
      have h3 := ih s' (L ++ [bm]) h2
      simpa [List.append_assoc] using h3
    · exact ih s' L ((dStep_SetsOk L s h).1 s' hstep)
    · simp only [List.map_nil]
      exact SetsOk_sublist (by simp) h
    · simp only [List.map_nil]
      exact SetsOk_sublist (by simp) h

/-- C2, counterexample — with the one-value store `3 ↦ {1}` and candidate set
`{5}`, the descending sort iterator yields nothing at all, so the union of the
yielded bitmaps is `∅`, not the candidate set `{5}`: a candidate holding no
facet value for the field is never emitted. -/
theorem C2_union_misses_candidates :
    descending_facet_sort [(⟨0, 0, 3⟩, .ok ⟨1, {1}⟩)] 0 {5} 10 = [] ∧
      (∅ : Finset Nat) ≠ ({5} : Finset Nat) := by
  constructor
  · rfl
  · decide

/-- C2, amended — for any candidate set C and field, the bitmaps yielded by
the Descending Facet Sort Iterator are pairwise disjoint and each is contained
in C (every document of C appears in at most one yielded bitmap); the union of
the yielded bitmaps is therefore contained in C, but can be a proper subset
when some candidate holds no facet value for the field. -/
theorem C2_descending_partial_partition (db : Db) (fid : Nat)
    (candidates : Finset Nat) (fuel : Nat) :
    ((descending_facet_sort db fid candidates fuel).map Prod.snd).Pairwise Disjoint ∧
      ∀ bm ∈ (descending_facet_sort db fid candidates fuel).map Prod.snd,
        bm ⊆ candidates := by
  unfold descending_facet_sort
  rcases get_first_facet_value db fid with _ | fb
  · simp
  · rcases get_last_facet_value db fid with _ | lb
    · simp
    · have h := dRun_SetsOk db fid (C := candidates) fuel
        [⟨candidates,
          (dbRevRange db ⟨fid, get_highest_level db fid, fb⟩ (.incl lb) fid
            (get_highest_level db fid)).take usizeMax,
          .incl lb⟩] []
        (by
          constructor
          · simp [dDocs]
          · intro x hx
            simp [dDocs] at hx
            simp [hx])
      simpa [SetsOk] using h

/-- The snapshot's entries are in strictly ascending key order — what LMDB
guarantees for any database and its range cursors rely on. -/
abbrev dbSorted (db : Db) : Prop :=
  List.Pairwise (fun a b => keyLtb a.1 b.1 = true) db

/-- Strictly below the last-yielded bound (`none` before the first yield). -/
def ltu (x : Nat) : Option Nat → Prop
  | none => True
  | some v => x < v

/-- The left bounds a frame's right bound admits. -/
def rbAdm : RBound → Nat → Prop
  | .incl r, x => x ≤ r
  | .excl r, x => x < r
  | .unb, _ => True

/-- Going further down stays below the last yield. -/
theorem ltu_trans {x y : Nat} {u : Option Nat} (h : x < y) (h2 : ltu y u) : ltu x u := by
  cases u with
  | none => trivial
  | some v => exact lt_trans h h2

/-- Arithmetic reading of the strict key order. -/
theorem keyLtb_iff {a b : FacetKey} : keyLtb a b = true ↔
    (a.field_id < b.field_id ∨ (a.field_id = b.field_id ∧
      (a.level < b.level ∨ (a.level = b.level ∧ a.left_bound < b.left_bound)))) := by
  simp [keyLtb, Bool.or_eq_true, Bool.and_eq_true, decide_eq_true_eq, beq_iff_eq]

/-- The reflexive key order is the strict one or equality. -/
theorem keyLeb_iff {a b : FacetKey} : keyLeb a b = true ↔
    (keyLtb a b = true ∨ a = b) := by
  simp [keyLeb, Bool.or_eq_true, beq_iff_eq]

/-- Arithmetic reading of the reflexive key order. -/
theorem keyLeb_arith {a b : FacetKey} : keyLeb a b = true ↔
    (a.field_id < b.field_id ∨ (a.field_id = b.field_id ∧
      (a.level < b.level ∨ (a.level = b.level ∧ a.left_bound ≤ b.left_bound)))) := by
  rw [keyLeb_iff, keyLtb_iff]
  obtain ⟨af, al, ab⟩ := a
  obtain ⟨bf, bl, bb⟩ := b
  simp only [FacetKey.mk.injEq]
  omega

/-- A key sandwiched between two bounds of the same field and level has that
field and level, and its left bound lies between the bounds' values. -/
theorem range_key_facts {f l a : Nat} {rb : RBound} {k : FacetKey}
    (hrb : rb ≠ RBound.unb)
    (hlo : keyLeb ⟨f, l, a⟩ k = true) (hup : admUpper rb f l k = true) :
    k.field_id = f ∧ k.level = l ∧ a ≤ k.left_bound ∧ rbAdm rb k.left_bound := by
  obtain ⟨kf, kl, kb⟩ := k
  have h1 := keyLeb_arith.mp hlo
  simp only at h1
  cases rb with
  | unb => exact absurd rfl hrb
  | incl r =>
    have h2 := keyLeb_arith.mp (by simpa [admUpper] using hup)
    simp only at h2
    simp only [rbAdm]
    omega
  | excl r =>
    have h2 := keyLtb_iff.mp (by simpa [admUpper] using hup)
    simp only at h2
    simp only [rbAdm]
    omega

/-- Membership in a reverse range. -/
theorem dbRevRange_spec {db : Db} {lo : FacetKey} {rb : RBound} {fid lv : Nat}
    {e : DbItem} :
    e ∈ dbRevRange db lo rb fid lv ↔
      e ∈ db ∧ keyLeb lo e.1 = true ∧ admUpper rb fid lv e.1 = true := by
  simp [dbRevRange, List.mem_reverse, List.mem_filter, Bool.and_eq_true]

/-- A reverse range over a sorted snapshot is strictly descending. -/
theorem dbRevRange_pairwise {db : Db} {lo : FacetKey} {rb : RBound} {fid lv : Nat}
    (hdb : dbSorted db) :
    List.Pairwise (fun x y => keyLtb y.1 x.1 = true) (dbRevRange db lo rb fid lv) := by
  unfold dbRevRange
  rw [List.pairwise_reverse]
  exact hdb.filter _

/-- A freshly opened cursor (reverse range between same-field same-level keys,
limited by `take`) is strictly descending in left bound, and all its entries
lie in the field, level, and bound window of the range. -/
theorem cursor_facts (db : Db) (fid lv a : Nat) (rb : RBound) (n : Nat)
    (hdb : dbSorted db) (hrb : rb ≠ RBound.unb) :
    List.Pairwise (fun x y => y.1.left_bound < x.1.left_bound)
      ((dbRevRange db ⟨fid, lv, a⟩ rb fid lv).take n) ∧
    ∀ e ∈ (dbRevRange db ⟨fid, lv, a⟩ rb fid lv).take n,
      e.1.field_id = fid ∧ e.1.level = lv ∧ a ≤ e.1.left_bound ∧
        rbAdm rb e.1.left_bound := by
  have hmem : ∀ e ∈ (dbRevRange db ⟨fid, lv, a⟩ rb fid lv).take n,
      e.1.field_id = fid ∧ e.1.level = lv ∧ a ≤ e.1.left_bound ∧
        rbAdm rb e.1.left_bound := by
    intro e he
    have he2 := (List.take_sublist _ _).mem he
    obtain ⟨_, hlo, hup⟩ := dbRevRange_spec.mp he2
    exact range_key_facts hrb hlo hup
  refine ⟨?_, hmem⟩
  have hp : List.Pairwise (fun x y => keyLtb y.1 x.1 = true)
      ((dbRevRange db ⟨fid, lv, a⟩ rb fid lv).take n) :=
    (dbRevRange_pairwise hdb).sublist (List.take_sublist _ _)
  refine hp.imp_of_mem ?_
  intro x y hx hy hlt
  obtain ⟨hxf, hxl, _, _⟩ := hmem x hx
  obtain ⟨hyf, hyl, _, _⟩ := hmem y hy
  rw [keyLtb_iff] at hlt
  omega

/-- Per-frame invariant of the descending sort, relative to the last-yielded
bound `u`: the cursor is strictly descending, uniform in field and level, all
its bounds are below `u`, and — for frames still above level 0 — everything
the frame's right bound admits is below `u`; right bounds are never
unbounded (the initial frame starts at `Included(last_bound)`). -/
def FrameInv (fid : Nat) (u : Option Nat) (f : DFrame) : Prop :=
  List.Pairwise (fun a b => b.1.left_bound < a.1.left_bound) f.cursor ∧
  (∀ e ∈ f.cursor, e.1.field_id = fid) ∧
  (∀ e ∈ f.cursor, ∀ e' ∈ f.cursor, e.1.level = e'.1.level) ∧
  (∀ e ∈ f.cursor, ltu e.1.left_bound u) ∧
  (∀ e ∈ f.cursor, 0 < e.1.level → ∀ x, rbAdm f.right_bound x → ltu x u) ∧
  f.right_bound ≠ RBound.unb

/-- Relation between a frame and any deeper frame: the deeper frame's
remaining entries lie strictly below (and at strictly higher levels than) all
entries of the shallower frame, and whatever the deeper right bound admits is
below the shallower frame's entries. -/
def FramePair (ftop fbot : DFrame) : Prop :=
  (∀ eb ∈ fbot.cursor, ∀ et ∈ ftop.cursor,
    eb.1.left_bound < et.1.left_bound ∧ et.1.level < eb.1.level) ∧
  (∀ x, rbAdm fbot.right_bound x → ∀ et ∈ ftop.cursor, x < et.1.left_bound)

/-- The full descending-sort invariant: every frame satisfies `FrameInv` and
the stack is pairwise `FramePair`-related from top to bottom. -/
def DInv (fid : Nat) (s : DState) (u : Option Nat) : Prop :=
  (∀ f ∈ s, FrameInv fid u f) ∧ List.Pairwise FramePair s

/-- One machine step preserves the invariant; a yield emits a bound strictly
below the previous one and re-establishes the invariant at the new bound. -/
theorem dStep_DInv {db : Db} {fid : Nat} {u : Option Nat} (hdb : dbSorted db)
    (s : DState) (h : DInv fid s u) :
    (∀ s', dStep db fid s = .cont s' → DInv fid s' u) ∧
    (∀ b bm s', dStep db fid s = .yield b bm s' →
      ltu b u ∧ DInv fid s' (some b)) := by
  obtain ⟨hfr, hpair⟩ := h
  match s with
  | [] =>
    refine ⟨?_, ?_⟩
    · intro s' heq; simp [dStep] at heq
    · intro b bm s' heq; simp [dStep] at heq
  | ⟨docs, cursor, rb⟩ :: stack =>
    have hftop : FrameInv fid u ⟨docs, cursor, rb⟩ := hfr _ (List.mem_cons_self _ _)
    have hfrstack : ∀ f ∈ stack, FrameInv fid u f := fun f hf =>
      hfr f (List.mem_cons_of_mem _ hf)
    have hpairstack : List.Pairwise FramePair stack :=
      hpair.sublist (List.sublist_cons_self _ _)
    have hpairtop : ∀ g ∈ stack, FramePair ⟨docs, cursor, rb⟩ g := fun g hg =>
      List.rel_of_pairwise_cons hpair hg
    match cursor with
    | [] =>
      refine ⟨?_, ?_⟩
      · intro s' heq
        simp only [dStep] at heq
        cases heq
        exact ⟨hfrstack, hpairstack⟩
      · intro b bm s' heq; simp [dStep] at heq
    | (key, vres) :: cur =>
      match vres with
      | .error e =>
        refine ⟨?_, ?_⟩
        · intro s' heq; simp [dStep] at heq
        · intro b bm s' heq; simp [dStep] at heq
      | .ok value =>
        obtain ⟨h1, h2, h3, ha, hb, hg⟩ := hftop
        have hheadmem : ((key, Except.ok value) : DbItem) ∈
            ((key, Except.ok value) :: cur : List DbItem) := List.mem_cons_self _ _
        by_cases hf : key.field_id ≠ fid
        · refine ⟨?_, ?_⟩
          · intro s' heq; simp [dStep, hf] at heq
          · intro b bm s' heq; simp [dStep, hf] at heq
        · by_cases hd : docs = ∅
          · refine ⟨?_, ?_⟩
            · intro s' heq
              simp only [dStep, if_neg hf, if_pos hd] at heq
              cases heq
              exact ⟨hfrstack, hpairstack⟩
            · intro b bm s' heq
              simp only [dStep, if_neg hf, if_pos hd] at heq
              cases heq
          · by_cases hbm : value.bitmap ∩ docs ≠ ∅
            · by_cases hl : key.level = 0
              · -- yield
                refine ⟨?_, ?_⟩
                · intro s' heq
                  simp only [dStep, if_neg hf, if_neg hd, if_pos hbm, if_pos hl] at heq
                  cases heq
                · intro b bm s' heq
                  simp only [dStep, if_neg hf, if_neg hd, if_pos hbm, if_pos hl] at heq
                  obtain ⟨rfl, rfl, rfl⟩ := heq
                  refine ⟨ha _ hheadmem, ?_, ?_⟩
                  · -- per-frame invariants at u' = some key.left_bound
                    intro f hfmem
                    rcases List.mem_cons.mp hfmem with rfl | hfs
                    · refine ⟨h1.of_cons, ?_, ?_, ?_, ?_, hg⟩
                      · intro e he; exact h2 e (List.mem_cons_of_mem _ he)
                      · intro e he e' he'
                        exact h3 e (List.mem_cons_of_mem _ he) e' (List.mem_cons_of_mem _ he')
                      · intro e he
                        exact List.rel_of_pairwise_cons h1 he
                      · intro e he hpos
                        have hlv : e.1.level = key.level :=
                          h3 e (List.mem_cons_of_mem _ he) _ hheadmem
                        omega
                    · obtain ⟨g1, g2, g3, _, _, g6⟩ := hfrstack f hfs
                      refine ⟨g1, g2, g3, ?_, ?_, g6⟩
                      · intro e he
                        exact ((hpairtop f hfs).1 e he _ hheadmem).1
                      · intro e he _ x hx
                        exact (hpairtop f hfs).2 x hx _ hheadmem
                  · -- cross-frame pairs
                    refine List.Pairwise.cons ?_ hpairstack
                    intro g hgs
                    refine ⟨?_, ?_⟩
                    · intro eb heb et het
                      exact (hpairtop g hgs).1 eb heb et (List.mem_cons_of_mem _ het)
                    · intro x hx et het
                      exact (hpairtop g hgs).2 x hx et (List.mem_cons_of_mem _ het)
              · -- push
                refine ⟨?_, ?_⟩
                · intro s' heq
                  simp only [dStep, if_neg hf, if_neg hd, if_pos hbm, if_neg hl] at heq
                  cases heq
                  have hcf := cursor_facts db fid (key.level - 1)
                    key.left_bound rb value.size hdb hg
                  have hlpos : 0 < key.level := Nat.pos_of_ne_zero hl
                  have hbkey : ∀ x, rbAdm rb x → ltu x u := hb _ hheadmem hlpos
                  constructor
                  · intro f hfmem
                    rcases List.mem_cons.mp hfmem with rfl | hfs
                    · -- child frame
                      refine ⟨hcf.1, ?_, ?_, ?_, ?_, hg⟩
                      · intro e he; exact (hcf.2 e he).1
                      · intro e he e' he'
                        have q1 := (hcf.2 e he).2.1
                        have q2 := (hcf.2 e' he').2.1
                        omega
                      · intro e he
                        exact hbkey _ (hcf.2 e he).2.2.2
                      · intro e he _ x hx
                        exact hbkey x hx
                    · rcases List.mem_cons.mp hfs with rfl | hfs2
                      · -- parent frame
                        refine ⟨h1.of_cons, ?_, ?_, ?_, ?_, by simp⟩
                        · intro e he; exact h2 e (List.mem_cons_of_mem _ he)
                        · intro e he e' he'
                          exact h3 e (List.mem_cons_of_mem _ he) e'
                            (List.mem_cons_of_mem _ he')
                        · intro e he; exact ha e (List.mem_cons_of_mem _ he)
                        · intro e he _ x hx
                          simp only [rbAdm] at hx
                          exact ltu_trans hx (ha _ hheadmem)
                      · exact hfrstack f hfs2
                  · -- cross-frame pairs: child :: parent :: stack
                    refine List.Pairwise.cons ?_ (List.Pairwise.cons ?_ hpairstack)
                    · intro g hgmem
                      rcases List.mem_cons.mp hgmem with rfl | hgs
                      · -- (child, parent)
                        refine ⟨?_, ?_⟩
                        · intro eb heb et het
                          have hebk : eb.1.left_bound < key.left_bound :=
                            List.rel_of_pairwise_cons h1 heb
                          have hetk := hcf.2 et het
                          have heblvl : eb.1.level = key.level :=
                            h3 eb (List.mem_cons_of_mem _ heb) _ hheadmem
                          constructor
                          · omega
                          · omega
                        · intro x hx et het
                          simp only [rbAdm] at hx
                          have := (hcf.2 et het).2.2.1
                          omega
                      · -- (child, g) for deeper g
                        refine ⟨?_, ?_⟩
                        · intro eb heb et het
                          have hp1 : eb.1.left_bound < key.left_bound ∧
                              key.level < eb.1.level :=
                            (hpairtop g hgs).1 eb heb _ hheadmem
                          have hetk := hcf.2 et het
                          constructor
                          · omega
                          · omega
                        · intro x hx et het
                          have hxk : x < key.left_bound :=
                            (hpairtop g hgs).2 x hx _ hheadmem
                          have h2' := (hcf.2 et het).2.2.1
                          omega
                    · intro g hgs
                      refine ⟨?_, ?_⟩
                      · intro eb heb et het
                        exact (hpairtop g hgs).1 eb heb et (List.mem_cons_of_mem _ het)
                      · intro x hx et het
                        exact (hpairtop g hgs).2 x hx et (List.mem_cons_of_mem _ het)
                · intro b bm s' heq
                  simp only [dStep, if_neg hf, if_neg hd, if_pos hbm, if_neg hl] at heq
                  cases heq
            · -- skip
              refine ⟨?_, ?_⟩
              · intro s' heq
                simp only [dStep, if_neg hf, if_neg hd, if_neg hbm] at heq
                cases heq
                constructor
                · intro f hfmem
                  rcases List.mem_cons.mp hfmem with rfl | hfs
                  · refine ⟨h1.of_cons, ?_, ?_, ?_, ?_, by simp⟩
                    · intro e he; exact h2 e (List.mem_cons_of_mem _ he)
                    · intro e he e' he'
                      exact h3 e (List.mem_cons_of_mem _ he) e' (List.mem_cons_of_mem _ he')
                    · intro e he; exact ha e (List.mem_cons_of_mem _ he)
                    · intro e he _ x hx
                      simp only [rbAdm] at hx
                      exact ltu_trans hx (ha _ hheadmem)
                  · exact hfrstack f hfs
                · refine List.Pairwise.cons ?_ hpairstack
                  intro g hgs
                  refine ⟨?_, ?_⟩
                  · intro eb heb et het
                    exact (hpairtop g hgs).1 eb heb et (List.mem_cons_of_mem _ het)
                  · intro x hx et het
                    exact (hpairtop g hgs).2 x hx et (List.mem_cons_of_mem _ het)
              · intro b bm s' heq
                simp only [dStep, if_neg hf, if_neg hd, if_neg hbm] at heq
                cases heq

/-- Any run from an invariant state stays below the last-yielded bound and
emits strictly decreasing bounds. -/
theorem dRun_chain {db : Db} {fid : Nat} (hdb : dbSorted db) :
    ∀ (fuel : Nat) (s : DState) (u : Option Nat), DInv fid s u →
      (∀ p ∈ dRun db fid fuel s, ltu p.1 u) ∧
      List.Chain' (fun a b => b < a) ((dRun db fid fuel s).map Prod.fst) := by
  intro fuel
  induction fuel with
  | zero =>
    intro s u _
    simp [dRun]
  | succ fuel ih =>
    intro s u h
    rw [dRun]
    rcases hstep : dStep db fid s with ⟨b, bm, s'⟩ | ⟨s'⟩ | _ | _
    · obtain ⟨hbu, hinv'⟩ := (dStep_DInv hdb s h).2 b bm s' hstep
      obtain ⟨hall, hchain⟩ := ih s' (some b) hinv'
      constructor
      · intro p hp
        rcases List.mem_cons.mp hp with rfl | hp2
        · exact hbu
        · exact ltu_trans (hall p hp2) hbu
      · rw [List.map_cons, List.chain'_cons']
        refine ⟨?_, hchain⟩
        intro y hy
        have hy2 : y ∈ (dRun db fid fuel s').map Prod.fst := List.mem_of_mem_head? hy
        rcases List.mem_map.mp hy2 with ⟨p, hp, rfl⟩
        exact hall p hp
    · exact ih s' u ((dStep_DInv hdb s h).1 s' hstep)
    · simp
    · simp

/-- The initial stack of `descending_facet_sort` satisfies the invariant. -/
theorem descending_init_DInv {db : Db} {fid : Nat} (cands : Finset Nat)
    (fb lb : Nat) (hdb : dbSorted db) :
    DInv fid
      [⟨cands,
        (dbRevRange db ⟨fid, get_highest_level db fid, fb⟩ (.incl lb) fid
          (get_highest_level db fid)).take usizeMax,
        .incl lb⟩] none := by
  have hcf := cursor_facts db fid (get_highest_level db fid)
    fb (.incl lb) usizeMax hdb (by simp)
  constructor
  · intro f hf
    rcases List.mem_cons.mp hf with rfl | hf2
    · refine ⟨hcf.1, ?_, ?_, ?_, ?_, by simp⟩
      · intro e he; exact (hcf.2 e he).1
      · intro e he e' he'
        have q1 := (hcf.2 e he).2.1
        have q2 := (hcf.2 e' he').2.1
        omega
      · intro e _; trivial
      · intro e _ _ x _; trivial
    · simp at hf2
  · simp

/-- C6 — on a well-formed snapshot (keys strictly sorted), consecutive bitmaps
yielded by the Descending Facet Sort Iterator correspond to strictly
decreasing facet values: each yielded level-0 `left_bound` is strictly
smaller, in the order-preserving encoding, than the previous one. -/
theorem C6_descending_strictly_decreasing (db : Db) (fid : Nat)
    (candidates : Finset Nat) (fuel : Nat) (hdb : dbSorted db) :
    List.Chain' (fun a b => b < a)
      ((descending_facet_sort db fid candidates fuel).map Prod.fst) := by
  unfold descending_facet_sort
  rcases get_first_facet_value db fid with _ | fb
  · simp
  · rcases get_last_facet_value db fid with _ | lb
    · simp
    · exact (dRun_chain hdb fuel _ none (descending_init_DInv candidates fb lb hdb)).2

/-- C6, witness — the descending-order law applied to a concrete sorted
two-level snapshot. -/
theorem C6_descending_strictly_decreasing_witness :
    dbSorted
      [(⟨0, 0, 1⟩, .ok ⟨0, {1}⟩), (⟨0, 0, 2⟩, .ok ⟨0, {2}⟩), (⟨0, 0, 3⟩, .ok ⟨0, {3}⟩),
        (⟨0, 1, 1⟩, .ok ⟨2, {1, 2}⟩), (⟨0, 1, 3⟩, .ok ⟨1, {3}⟩)] ∧
      List.Chain' (fun a b => b < a)
        ((descending_facet_sort
          [(⟨0, 0, 1⟩, .ok ⟨0, {1}⟩), (⟨0, 0, 2⟩, .ok ⟨0, {2}⟩), (⟨0, 0, 3⟩, .ok ⟨0, {3}⟩),
            (⟨0, 1, 1⟩, .ok ⟨2, {1, 2}⟩), (⟨0, 1, 3⟩, .ok ⟨1, {3}⟩)]
          0 {1, 2, 3, 9} 40).map Prod.fst) :=
  ⟨by decide,
    C6_descending_strictly_decreasing
      [(⟨0, 0, 1⟩, .ok ⟨0, {1}⟩), (⟨0, 0, 2⟩, .ok ⟨0, {2}⟩), (⟨0, 0, 3⟩, .ok ⟨0, {3}⟩),
        (⟨0, 1, 1⟩, .ok ⟨2, {1, 2}⟩), (⟨0, 1, 3⟩, .ok ⟨1, {3}⟩)]
      0 {1, 2, 3, 9} 40 (by decide)⟩
